import Mathlib

/-!
AS5600 magnetic encoder driver

Shallow embedding of `AS5600.h` (sketch `07_auto_calibration_system`).

Modelling conventions

* Target arithmetic is that of the 8-bit AVR boards the sketch is written for
  (avr-gcc): `int` is 16 bits, `float` and `double` are both IEEE binary32, so
  the literals `360.0`, `60.0`, `3600.0`, `4096.0` are binary32 values.
* A `float` value is the rational number it denotes. Every floating operation of
  the source is followed by `f32`, the rounding to the nearest binary32 value
  (ties to even, gradual underflow). Values beyond the finite binary32 range are
  infinite in C++ and are not represented: statements about unbounded arguments
  carry the bound they need. `isF32 x` says that `x` is a binary32 value.
* `uint8_t` / `uint16_t` values are natural numbers, reduced `% 256` / `% 65536`
  at the places where the C++ code narrows a value.
* `int _revolutionCount` is an integer kept in `[INT_MIN, INT_MAX]`: `++` and
  `--` store `wrapInt` of the exact result, the two's-complement wrap-around
  avr-gcc compiles. Signed overflow is undefined behaviour in C++, so no
  statement below relies on the wrapped value except to show that the exact
  result is not produced.
* `(int)x` on a `float` truncates toward zero; the theorems use it only on values
  that fit an `int`.
* The I2C bus is a function from register address to the byte the device
  delivers (`none` when `Wire.available()` is false).
* A method of the class becomes a function of the object state and of what the
  bus delivers during the call.
-/

-- ============================================
-- Constants
-- ============================================

def AS5600_ADDRESS : Nat := 0x36

def AS5600_ZMCO : Nat := 0x00
def AS5600_CONF_H : Nat := 0x07
def AS5600_RAW_ANGLE_H : Nat := 0x0C
def AS5600_ANGLE_H : Nat := 0x0E

def AS5600_STATUS : Nat := 0x0B
def AS5600_AGC : Nat := 0x1A
def AS5600_MAGNITUDE_H : Nat := 0x1B

def AS5600_STATUS_MH : Nat := 0x08
def AS5600_STATUS_ML : Nat := 0x10
def AS5600_STATUS_MD : Nat := 0x20

-- ============================================
-- Data structures
-- ============================================

/-- Bytes offered by the device, by register address; `none` when the request
yields no byte. -/
abbrev Wire := Nat → Option Nat

structure AngleMeasurement where
  rawValue : Nat
  degrees : ℚ
  deg : Int
  minutes : Int
  seconds : ℚ
  timestamp : Nat
  deriving DecidableEq

structure MagnetStatus where
  detected : Bool
  tooStrong : Bool
  tooWeak : Bool
  magnitude : Nat
  agc : Nat
  optimal : Bool
  deriving DecidableEq

/-- Private members of `class AS5600`. -/
structure AS5600 where
  _address : Nat
  _revolutionCount : Int
  _lastAngle : ℚ
  _totalAngle : ℚ
  deriving DecidableEq

namespace AS5600

-- ============================================
-- Machine arithmetic
-- ============================================

/-- Largest value of a 16-bit `int`. -/
def INT_MAX : Int := 32767

/-- Smallest value of a 16-bit `int`. -/
def INT_MIN : Int := -32768

/-- Value kept by a 16-bit `int` when the exact result is `x`. -/
def wrapInt (x : Int) : Int := (x + 32768) % 65536 - 32768

/-- Nearest integer, ties to the even neighbour. -/
def roundHalfEven (q : ℚ) : Int :=
  if q - ⌊q⌋ < 1 / 2 then ⌊q⌋
  else if 1 / 2 < q - ⌊q⌋ then ⌊q⌋ + 1
  else if ⌊q⌋ % 2 = 0 then ⌊q⌋ else ⌊q⌋ + 1

/-- Exponent of the binary32 spacing at `x`: 24 significant bits in the binade
of `x`, never finer than `2^-149`. -/
def ulpExp (x : ℚ) : Int :=
  if x = 0 then -149 else max (Int.log 2 |x|) (-126) - 23

/-- Rounding to the nearest binary32 value. -/
def f32 (x : ℚ) : ℚ :=
  (roundHalfEven (x / 2 ^ ulpExp x) : ℚ) * 2 ^ ulpExp x

/-- The rational `x` is a binary32 value. -/
def isF32 (x : ℚ) : Prop := f32 x = x

instance (x : ℚ) : Decidable (isF32 x) := by
  unfold isF32; infer_instance

/-- Conversion of an `int` to `float`. -/
def intToFloat (n : Int) : ℚ := f32 (n : ℚ)

/-- C++ conversion `(int)x` of a floating value: the fraction is discarded
(rounding toward zero). -/
def toInt (x : ℚ) : Int := if 0 ≤ x then ⌊x⌋ else ⌈x⌉

-- ============================================
-- Constructor and register reads
-- ============================================

/-- Constructor `AS5600::AS5600(uint8_t address)`. -/
def new (address : Nat) : AS5600 :=
  { _address := address % 256, _revolutionCount := 0, _lastAngle := 0, _totalAngle := 0 }

def readRegister8 (w : Wire) (reg : Nat) : Nat :=
  match w (reg % 256) with
  | some b => b % 256
  | none => 0

def readRegister16 (w : Wire) (regHigh : Nat) : Nat :=
  let highByte := readRegister8 w regHigh
  let lowByte := readRegister8 w (regHigh + 1)
  (((highByte % 65536) <<< 8) ||| lowByte) % 65536

-- ============================================
-- Static conversion functions
-- ============================================

/-- Product and quotient are exact in binary32 for every `uint16_t` argument
(`rawToDegrees_eq_rounded`), so no rounding appears. -/
def rawToDegrees (rawValue : Nat) : ℚ :=
  ((rawValue : ℚ) * 360) / 4096

/-- Body of `decimalToDMS` with every floating operation followed by `rnd`. -/
def decimalToDMSWith (rnd : ℚ → ℚ) (decimal : ℚ) : Int × Int × ℚ :=
  let deg : Int := toInt decimal
  let remainder : ℚ := rnd (rnd (decimal - rnd (deg : ℚ)) * 60)
  let min : Int := toInt remainder
  let sec : ℚ := rnd (rnd (remainder - rnd (min : ℚ)) * 60)
  (deg, min, sec)

def decimalToDMS (decimal : ℚ) : Int × Int × ℚ :=
  decimalToDMSWith f32 decimal

/-- Body of `DMStoDecimal` with every floating operation followed by `rnd`. -/
def DMStoDecimalWith (rnd : ℚ → ℚ) (deg : Int) (min : Int) (sec : ℚ) : ℚ :=
  rnd (rnd (rnd (deg : ℚ) + rnd (rnd (min : ℚ) / 60)) + rnd (sec / 3600))

def DMStoDecimal (deg : Int) (min : Int) (sec : ℚ) : ℚ :=
  DMStoDecimalWith f32 deg min sec

def errorInArcSeconds (errorDegrees : ℚ) : ℚ :=
  f32 (errorDegrees * 3600)

-- ============================================
-- Angle reads
-- ============================================

def readRawAngle (w : Wire) : Nat :=
  readRegister16 w AS5600_RAW_ANGLE_H &&& 0x0FFF

def readAngle (w : Wire) : Nat :=
  readRegister16 w AS5600_ANGLE_H &&& 0x0FFF

def readAngleDegrees (w : Wire) : ℚ :=
  rawToDegrees (readRawAngle w)

/-- The parameter `millis` is the value returned by `millis()`. -/
def readPreciseAngle (w : Wire) (millis : Nat) : AngleMeasurement :=
  let rawValue := readRawAngle w
  let degrees := rawToDegrees rawValue
  let dms := decimalToDMS degrees
  { rawValue := rawValue, degrees := degrees, timestamp := millis % 4294967296,
    deg := dms.1, minutes := dms.2.1, seconds := dms.2.2 }

-- ============================================
-- Multi-revolution tracking
-- ============================================

/-- Body of `resetRevolutionCount` once `readAngleDegrees()` has returned
`angle`. -/
def resetAt (s : AS5600) (angle : ℚ) : AS5600 :=
  { s with _revolutionCount := 0, _lastAngle := angle, _totalAngle := angle }

def resetRevolutionCount (s : AS5600) (w : Wire) : AS5600 :=
  resetAt s (readAngleDegrees w)

def getRevolutionCount (s : AS5600) : Int := s._revolutionCount

def getTotalAngle (s : AS5600) : ℚ := s._totalAngle

/-- Body of `updateMultiRevolution` once `readAngleDegrees()` has returned
`currentAngle`. -/
def updateAt (s : AS5600) (currentAngle : ℚ) : AS5600 :=
  let revolutionCount : Int :=
    if s._lastAngle > 270 ∧ currentAngle < 90 then wrapInt (s._revolutionCount + 1)
    else if s._lastAngle < 90 ∧ currentAngle > 270 then wrapInt (s._revolutionCount - 1)
    else s._revolutionCount
  { s with _revolutionCount := revolutionCount,
           _totalAngle := f32 (f32 (intToFloat revolutionCount * 360) + currentAngle),
           _lastAngle := currentAngle }

def updateMultiRevolution (s : AS5600) (w : Wire) : AS5600 :=
  updateAt s (readAngleDegrees w)

-- ============================================
-- Magnet status
-- ============================================

def getMagnitude (w : Wire) : Nat :=
  readRegister16 w AS5600_MAGNITUDE_H &&& 0x0FFF

def getAGC (w : Wire) : Nat :=
  readRegister8 w AS5600_AGC

def getMagnetStatus (w : Wire) : MagnetStatus :=
  let statusReg := readRegister8 w AS5600_STATUS
  let detected : Bool := (statusReg &&& AS5600_STATUS_MD) != 0
  let tooStrong : Bool := (statusReg &&& AS5600_STATUS_MH) != 0
  let tooWeak : Bool := (statusReg &&& AS5600_STATUS_ML) != 0
  let magnitude := getMagnitude w
  let agc := getAGC w
  { detected := detected, tooStrong := tooStrong, tooWeak := tooWeak,
    magnitude := magnitude, agc := agc,
    optimal := detected && !tooStrong && !tooWeak &&
               decide (magnitude ≥ 1500) && decide (magnitude ≤ 3000) }

def isMagnetDetected (w : Wire) : Bool :=
  (readRegister8 w AS5600_STATUS &&& AS5600_STATUS_MD) != 0

def getZMCO (w : Wire) : Nat :=
  readRegister8 w AS5600_ZMCO

def getConfig (w : Wire) : Nat :=
  readRegister16 w AS5600_CONF_H

end AS5600

-- ============================================
-- Polling loops and reference quantities
-- ============================================

namespace AS5600

/-- Relation between the three tracker fields stated by the data model, in
exact arithmetic. -/
def TrackerInvariant (s : AS5600) : Prop :=
  s._totalAngle = (s._revolutionCount : ℚ) * 360 + s._lastAngle

instance (s : AS5600) : Decidable (TrackerInvariant s) := by
  unfold TrackerInvariant; infer_instance

/-- The same relation with the right-hand side evaluated in `float`, as the
expression `(_revolutionCount * 360.0) + _lastAngle` is. -/
def TrackerInvariantFloat (s : AS5600) : Prop :=
  s._totalAngle = f32 (f32 (intToFloat s._revolutionCount * 360) + s._lastAngle)

instance (s : AS5600) : Decidable (TrackerInvariantFloat s) := by
  unfold TrackerInvariantFloat; infer_instance

/-- The counter holds a value of the 16-bit `int` type. -/
def CountInRange (s : AS5600) : Prop :=
  INT_MIN ≤ s._revolutionCount ∧ s._revolutionCount ≤ INT_MAX

instance (s : AS5600) : Decidable (CountInRange s) := by
  unfold CountInRange; infer_instance

/-- One call on the tracker; the argument is the value `readAngleDegrees()`
returned during that call. -/
inductive TrackerCall where
  | reset (angle : ℚ)
  | update (angle : ℚ)

/-- Angle sampled during a call. -/
def TrackerCall.angle : TrackerCall → ℚ
  | TrackerCall.reset angle => angle
  | TrackerCall.update angle => angle

def applyCall (s : AS5600) : TrackerCall → AS5600
  | TrackerCall.reset angle => resetAt s angle
  | TrackerCall.update angle => updateAt s angle

def runCalls (s : AS5600) (calls : List TrackerCall) : AS5600 :=
  calls.foldl applyCall s

/-- Successive `updateMultiRevolution` calls, one per sample. -/
def updateAll (s : AS5600) (samples : List ℚ) : AS5600 :=
  samples.foldl updateAt s

/-- Updates that take the shaft forward through `n` full turns, sampled at raw
codes 2048, 3584 and 1 in each turn. -/
def forwardTurns : Nat → List ℚ
  | 0 => []
  | n + 1 => rawToDegrees 2048 :: rawToDegrees 3584 :: rawToDegrees 1 :: forwardTurns n

/-- Calls of a long forward run: a reset at raw code 0, 91 forward turns, then an
update at raw code 2049. -/
def longRunCalls : List TrackerCall :=
  TrackerCall.reset (rawToDegrees 0) ::
    (forwardTurns 91 ++ [rawToDegrees 2049]).map TrackerCall.update

/-- A shaft turning forward by 895 raw steps (about 78.66 degrees) per sample. -/
def steadyShaft (i : Nat) : ℚ := (i : ℚ) * rawToDegrees 895

/-- Position of a continuous shaft angle within its turn, in `[0, 360)`. -/
def wrap360 (theta : ℚ) : ℚ := theta - 360 * (⌊theta / 360⌋ : ℚ)

/-- Number of completed turns of a continuous shaft angle. -/
def turns (theta : ℚ) : Int := ⌊theta / 360⌋

/-- Bus whose registers hold the listed `(address, byte)` pairs and deliver
nothing elsewhere. -/
def wireOf (regs : List (Nat × Nat)) : Wire :=
  fun reg => regs.lookup reg

/-- Bus on which the raw-angle register pair holds the 16-bit value
`256 * highByte + lowByte`. -/
def angleWire (highByte lowByte : Nat) : Wire :=
  wireOf [(AS5600_RAW_ANGLE_H, highByte), (AS5600_RAW_ANGLE_H + 1, lowByte)]

/-- Bus on which the status register holds `status`, the magnitude register pair
holds `256 * magHigh + magLow` and the gain register holds `agc`. -/
def magnetWire (status magHigh magLow agc : Nat) : Wire :=
  wireOf [(AS5600_STATUS, status), (AS5600_MAGNITUDE_H, magHigh),
          (AS5600_MAGNITUDE_H + 1, magLow), (AS5600_AGC, agc)]

/-- Bus on which the register pair at `regHigh` holds `highByte`, `lowByte`. -/
def pairWire (regHigh highByte lowByte : Nat) : Wire :=
  wireOf [(regHigh, highByte), (regHigh + 1, lowByte)]

/-- Tracker run along a sampled shaft trajectory `theta 0 .. theta n`: a reset on
`theta 0 mod 360`, then one update per later angle, each taken `mod 360`. -/
def trackShaft (s : AS5600) (theta : Nat → ℚ) (n : Nat) : AS5600 :=
  updateAll (resetAt s (wrap360 (theta 0)))
    ((List.range n).map (fun i => wrap360 (theta (i + 1))))

/-- Precision printed in the file header, in degrees. -/
def headerPrecisionDegrees : ℚ := 0.0879

/-- Precision printed in the file header, in arc-minutes. -/
def headerPrecisionArcMinutes : ℚ := 5.27

/-- Precision printed in the file header, in arc-seconds. -/
def headerPrecisionArcSeconds : ℚ := 316.4

end AS5600

namespace AS5600

theorem floor_frac_bounds (q : ℚ) : 0 ≤ q - (⌊q⌋ : ℚ) ∧ q - (⌊q⌋ : ℚ) < 1 := by
  have h1 := Int.floor_le q
  have h2 := Int.lt_floor_add_one q
  constructor <;> linarith

theorem roundHalfEven_cases (q : ℚ) :
    roundHalfEven q = ⌊q⌋ ∨ roundHalfEven q = ⌊q⌋ + 1 := by
  unfold roundHalfEven
  split_ifs <;> simp

theorem roundHalfEven_sub_le (q : ℚ) : |((roundHalfEven q : Int) : ℚ) - q| ≤ 1 / 2 := by
  obtain ⟨h0, h1⟩ := floor_frac_bounds q
  unfold roundHalfEven
  rw [abs_le]
  split_ifs with ha hb hc
  · constructor <;> linarith
  · push_cast; constructor <;> linarith
  · have : q - (⌊q⌋ : ℚ) = 1 / 2 := le_antisymm (not_lt.mp hb) (not_lt.mp ha)
    constructor <;> linarith
  · have : q - (⌊q⌋ : ℚ) = 1 / 2 := le_antisymm (not_lt.mp hb) (not_lt.mp ha)
    push_cast; constructor <;> linarith

theorem roundHalfEven_intCast (n : Int) : roundHalfEven (n : ℚ) = n := by
  unfold roundHalfEven
  rw [Int.floor_intCast]
  simp

theorem roundHalfEven_le_of_le (q : ℚ) (n : Int) (h : q ≤ (n : ℚ)) : roundHalfEven q ≤ n := by
  rcases eq_or_lt_of_le h with heq | hlt
  · rw [heq, roundHalfEven_intCast]
  · have hf : ⌊q⌋ < n := Int.floor_lt.mpr hlt
    rcases roundHalfEven_cases q with e | e <;> rw [e] <;> omega

theorem le_roundHalfEven_of_le (q : ℚ) (n : Int) (h : (n : ℚ) ≤ q) : n ≤ roundHalfEven q := by
  have hf : n ≤ ⌊q⌋ := Int.le_floor.mpr h
  rcases roundHalfEven_cases q with e | e <;> rw [e] <;> omega

theorem roundHalfEven_lt_of_lt_sub_half (q : ℚ) (n : Int) (h : q < (n : ℚ) - 1 / 2) :
    roundHalfEven q < n := by
  obtain ⟨h0, h1⟩ := floor_frac_bounds q
  have hf : ⌊q⌋ < n := Int.floor_lt.mpr (by linarith)
  unfold roundHalfEven
  split_ifs with ha hb hc
  · exact hf
  · have : ((⌊q⌋ : Int) : ℚ) + 1 < (n : ℚ) := by linarith
    exact_mod_cast this
  · exact hf
  · have hq : q - (⌊q⌋ : ℚ) = 1 / 2 := le_antisymm (not_lt.mp hb) (not_lt.mp ha)
    have : ((⌊q⌋ : Int) : ℚ) + 1 < (n : ℚ) := by linarith
    exact_mod_cast this

/-- Rounding a value whose fraction is below one half. -/
theorem roundHalfEven_eq_of_lt_half (q : ℚ) (f : Int) (h1 : (f : ℚ) ≤ q)
    (h2 : q < (f : ℚ) + 1 / 2) : roundHalfEven q = f := by
  have hf : ⌊q⌋ = f := by
    rw [Int.floor_eq_iff]; constructor <;> linarith
  unfold roundHalfEven
  rw [hf, if_pos (by linarith)]

/-- Rounding a value whose fraction is above one half. -/
theorem roundHalfEven_eq_of_gt_half (q : ℚ) (f : Int) (h1 : (f : ℚ) + 1 / 2 < q)
    (h2 : q < (f : ℚ) + 1) : roundHalfEven q = f + 1 := by
  have hf : ⌊q⌋ = f := by
    rw [Int.floor_eq_iff]; constructor <;> linarith
  unfold roundHalfEven
  rw [hf, if_neg (by linarith), if_pos (by linarith)]

/-- Rounding a tie: the even neighbour is taken. -/
theorem roundHalfEven_tie (f : Int) :
    roundHalfEven ((f : ℚ) + 1 / 2) = if f % 2 = 0 then f else f + 1 := by
  have hf : ⌊(f : ℚ) + 1 / 2⌋ = f := by
    rw [Int.floor_eq_iff]; constructor <;> linarith
  unfold roundHalfEven
  rw [hf, if_neg (by linarith), if_neg (by linarith)]

end AS5600

namespace AS5600

theorem two_zpow_pos (e : Int) : (0 : ℚ) < 2 ^ e := zpow_pos (by norm_num) e

theorem two_zpow_mono {a b : Int} (h : a ≤ b) : (2 : ℚ) ^ a ≤ 2 ^ b :=
  zpow_le_zpow_right₀ (by norm_num) h

theorem log2_of_binade (x : ℚ) (E : Int) (hlo : (2 : ℚ) ^ E ≤ |x|)
    (hhi : |x| < (2 : ℚ) ^ (E + 1)) : Int.log 2 |x| = E := by
  have hpos : 0 < |x| := lt_of_lt_of_le (two_zpow_pos E) hlo
  apply le_antisymm
  · have h := (Int.lt_zpow_iff_log_lt (by norm_num : 1 < 2) hpos).mp (by simpa using hhi)
    omega
  · exact (Int.zpow_le_iff_le_log (by norm_num : 1 < 2) hpos).mp (by simpa using hlo)

theorem ulpExp_of_binade (x : ℚ) (E : Int) (hE : -126 ≤ E) (hlo : (2 : ℚ) ^ E ≤ |x|)
    (hhi : |x| < (2 : ℚ) ^ (E + 1)) : ulpExp x = E - 23 := by
  have hpos : 0 < |x| := lt_of_lt_of_le (two_zpow_pos E) hlo
  have hx : x ≠ 0 := abs_pos.mp hpos
  unfold ulpExp
  rw [if_neg hx, log2_of_binade x E hlo hhi, max_eq_left hE]

theorem ulpExp_ge (x : ℚ) : -149 ≤ ulpExp x := by
  unfold ulpExp
  split_ifs
  · exact le_refl _
  · have := le_max_right (Int.log 2 |x|) (-126)
    omega

theorem ulpExp_le (x : ℚ) (E : Int) (hE : -126 ≤ E) (h : |x| < (2 : ℚ) ^ (E + 1)) :
    ulpExp x ≤ E - 23 := by
  unfold ulpExp
  split_ifs with hx
  · omega
  · have hpos : 0 < |x| := abs_pos.mpr hx
    have hlog := (Int.lt_zpow_iff_log_lt (by norm_num : 1 < 2) hpos).mp (by simpa using h)
    have := max_le (by omega : Int.log 2 |x| ≤ E) hE
    omega

theorem abs_lt_two_zpow_ulpExp (x : ℚ) : |x| < (2 : ℚ) ^ (ulpExp x + 24) := by
  unfold ulpExp
  split_ifs with hx
  · rw [hx, abs_zero]; exact two_zpow_pos _
  · have h1 : |x| < (2 : ℚ) ^ (Int.log 2 |x| + 1) := by
      simpa using Int.lt_zpow_succ_log_self (by norm_num : 1 < 2) |x|
    have h2 : Int.log 2 |x| + 1 ≤ max (Int.log 2 |x|) (-126) - 23 + 24 := by
      have := le_max_left (Int.log 2 |x|) (-126)
      omega
    exact lt_of_lt_of_le h1 (two_zpow_mono h2)

theorem f32_zero : f32 0 = 0 := by
  unfold f32
  rw [zero_div]
  have : roundHalfEven 0 = 0 := by simpa using roundHalfEven_intCast 0
  rw [this]
  simp

/-- Rounding error is at most half a unit in the last place. -/
theorem f32_sub_abs_le (x : ℚ) : |f32 x - x| ≤ 2 ^ ulpExp x / 2 := by
  have hu := two_zpow_pos (ulpExp x)
  have hr := roundHalfEven_sub_le (x / 2 ^ ulpExp x)
  have e : f32 x - x
      = (((roundHalfEven (x / 2 ^ ulpExp x) : Int) : ℚ) - x / 2 ^ ulpExp x) * 2 ^ ulpExp x := by
    unfold f32
    field_simp
  rw [e, abs_mul, abs_of_pos hu]
  calc |((roundHalfEven (x / 2 ^ ulpExp x) : Int) : ℚ) - x / 2 ^ ulpExp x| * 2 ^ ulpExp x
      ≤ 1 / 2 * 2 ^ ulpExp x := mul_le_mul_of_nonneg_right hr hu.le
    _ = 2 ^ ulpExp x / 2 := by ring

theorem f32_err_of_abs_lt (x : ℚ) (E : Int) (hE : -126 ≤ E) (h : |x| < (2 : ℚ) ^ (E + 1)) :
    |f32 x - x| ≤ 2 ^ (E - 23) / 2 := by
  have h1 := f32_sub_abs_le x
  have h2 := two_zpow_mono (ulpExp_le x E hE h)
  linarith

/-- Below 512 in magnitude the rounding error is at most `2^-16`. -/
theorem f32_near (x : ℚ) (h : |x| < 512) : |f32 x - x| ≤ 1 / 65536 := by
  have := f32_err_of_abs_lt x 8 (by norm_num) (by norm_num; exact h)
  norm_num at this
  exact this

theorem f32_nonneg (x : ℚ) (h : 0 ≤ x) : 0 ≤ f32 x := by
  have hu := two_zpow_pos (ulpExp x)
  have hq : ((0 : Int) : ℚ) ≤ x / 2 ^ ulpExp x := by
    rw [Int.cast_zero]; positivity
  have hr := le_roundHalfEven_of_le _ 0 hq
  unfold f32
  have : (0 : ℚ) ≤ ((roundHalfEven (x / 2 ^ ulpExp x) : Int) : ℚ) := by exact_mod_cast hr
  positivity

/-- Value of the rounding inside a known binade. -/
theorem f32_of_binade (x : ℚ) (E : Int) (hE : -126 ≤ E) (hlo : (2 : ℚ) ^ E ≤ |x|)
    (hhi : |x| < (2 : ℚ) ^ (E + 1)) :
    f32 x = ((roundHalfEven (x / 2 ^ (E - 23)) : Int) : ℚ) * 2 ^ (E - 23) := by
  unfold f32
  rw [ulpExp_of_binade x E hE hlo hhi]

theorem f32_eval (x : ℚ) (E n : Int) (hE : -126 ≤ E) (hlo : (2 : ℚ) ^ E ≤ |x|)
    (hhi : |x| < (2 : ℚ) ^ (E + 1)) (hr : roundHalfEven (x / 2 ^ (E - 23)) = n) :
    f32 x = (n : ℚ) * 2 ^ (E - 23) := by
  rw [f32_of_binade x E hE hlo hhi, hr]

end AS5600

namespace AS5600

/-- A value `m * 2^j` with a 24-bit numerator and an exponent in range is a
float: rounding leaves it unchanged. -/
theorem f32_of_dyadic (m j : Int) (hm : |m| < 2 ^ 24) (hj : -149 ≤ j) :
    f32 ((m : ℚ) * 2 ^ j) = (m : ℚ) * 2 ^ j := by
  have hmq : |(m : ℚ)| < 2 ^ 24 := by exact_mod_cast hm
  have hx : |(m : ℚ) * 2 ^ j| < (2 : ℚ) ^ (j + 23 + 1) := by
    rw [abs_mul, abs_of_pos (two_zpow_pos j)]
    have e : (2 : ℚ) ^ (j + 23 + 1) = 2 ^ 24 * 2 ^ j := by
      rw [show j + 23 + 1 = 24 + j by ring, zpow_add₀ (by norm_num : (2 : ℚ) ≠ 0)]
      norm_num
    rw [e]
    exact mul_lt_mul_of_pos_right hmq (two_zpow_pos j)
  have he : ulpExp ((m : ℚ) * 2 ^ j) ≤ j := by
    have := ulpExp_le ((m : ℚ) * 2 ^ j) (j + 23) (by omega) hx
    omega
  obtain ⟨k, hk⟩ := Int.eq_ofNat_of_zero_le (sub_nonneg.mpr he)
  have hpow : (2 : ℚ) ^ j = 2 ^ ulpExp ((m : ℚ) * 2 ^ j) * 2 ^ k := by
    rw [← zpow_natCast, ← zpow_add₀ (by norm_num : (2 : ℚ) ≠ 0), ← hk]
    congr 1
    ring
  have hu := two_zpow_pos (ulpExp ((m : ℚ) * 2 ^ j))
  have hq : (m : ℚ) * 2 ^ j / 2 ^ ulpExp ((m : ℚ) * 2 ^ j) = ((m * 2 ^ k : Int) : ℚ) := by
    rw [div_eq_iff hu.ne']
    push_cast
    rw [mul_assoc, mul_comm ((2 : ℚ) ^ k), ← hpow]
  unfold f32
  rw [hq, roundHalfEven_intCast]
  push_cast
  rw [mul_assoc, mul_comm ((2 : ℚ) ^ k), ← hpow]

theorem f32_intCast (n : Int) (hn : |n| < 2 ^ 24) : f32 (n : ℚ) = n := by
  have := f32_of_dyadic n 0 hn (by norm_num)
  simpa using this

theorem f32_div_two_pow (m : Int) (k : Nat) (hm : |m| < 2 ^ 24) (hk : k ≤ 149) :
    f32 ((m : ℚ) / 2 ^ k) = (m : ℚ) / 2 ^ k := by
  have h := f32_of_dyadic m (-(k : Int)) hm (by omega)
  have e : (2 : ℚ) ^ (-(k : Int)) = 1 / 2 ^ k := by
    rw [zpow_neg, zpow_natCast, one_div]
  rw [e, mul_one_div] at h
  exact h

/-- The significand produced by the rounding has at most 24 bits (or is the
power `2^24` that opens the next binade). -/
theorem roundHalfEven_ulp_bounds (x : ℚ) :
    -2 ^ 24 ≤ roundHalfEven (x / 2 ^ ulpExp x) ∧ roundHalfEven (x / 2 ^ ulpExp x) ≤ 2 ^ 24 := by
  have hu := two_zpow_pos (ulpExp x)
  have hlt := abs_lt_two_zpow_ulpExp x
  have e : (2 : ℚ) ^ (ulpExp x + 24) = 2 ^ ulpExp x * 2 ^ 24 := by
    rw [zpow_add₀ (by norm_num : (2 : ℚ) ≠ 0)]
    norm_num
  rw [e] at hlt
  have hq : |x / 2 ^ ulpExp x| < 2 ^ 24 := by
    rw [abs_div, abs_of_pos hu, div_lt_iff₀ hu]
    linarith
  obtain ⟨h1, h2⟩ := abs_lt.mp hq
  constructor
  · apply le_roundHalfEven_of_le
    push_cast
    linarith
  · apply roundHalfEven_le_of_le
    push_cast
    linarith

/-- The result of a rounding is a float. -/
theorem isF32_f32 (x : ℚ) : isF32 (f32 x) := by
  obtain ⟨hlo, hhi⟩ := roundHalfEven_ulp_bounds x
  have hj := ulpExp_ge x
  have hdef : f32 x = ((roundHalfEven (x / 2 ^ ulpExp x) : Int) : ℚ) * 2 ^ ulpExp x := rfl
  unfold isF32
  by_cases htop : roundHalfEven (x / 2 ^ ulpExp x) = 2 ^ 24
  · have e : f32 x = ((2 ^ 23 : Int) : ℚ) * 2 ^ (ulpExp x + 1) := by
      rw [hdef, htop, zpow_add₀ (by norm_num : (2 : ℚ) ≠ 0)]
      push_cast
      ring
    rw [e]
    exact f32_of_dyadic (2 ^ 23) (ulpExp x + 1) (by norm_num) (by omega)
  · by_cases hbot : roundHalfEven (x / 2 ^ ulpExp x) = -2 ^ 24
    · have e : f32 x = ((-2 ^ 23 : Int) : ℚ) * 2 ^ (ulpExp x + 1) := by
        rw [hdef, hbot, zpow_add₀ (by norm_num : (2 : ℚ) ≠ 0)]
        push_cast
        ring
      rw [e]
      exact f32_of_dyadic (-2 ^ 23) (ulpExp x + 1) (by norm_num) (by omega)
    · rw [hdef]
      apply f32_of_dyadic _ _ _ hj
      rw [abs_lt]
      constructor <;> omega

theorem f32_of_isF32 {x : ℚ} (h : isF32 x) : f32 x = x := h

/-- A float below 1 is at most `1 - 2^-24`. -/
theorem isF32_lt_one (z : ℚ) (hz : isF32 z) (h1 : z < 1) : z ≤ 1 - 1 / 16777216 := by
  by_cases hhalf : z < 1 / 2
  · linarith
  · have hhalf' : 1 / 2 ≤ z := not_lt.mp hhalf
    have habs : |z| = z := abs_of_nonneg (by linarith)
    have hb := f32_of_binade z (-1) (by norm_num) (by rw [habs]; norm_num; linarith)
      (by rw [habs]; norm_num; exact h1)
    unfold isF32 at hz
    rw [hz] at hb
    norm_num at hb
    rw [show z / (1 / 16777216) = z * 16777216 by ring] at hb
    have hlt : ((roundHalfEven (z * 16777216) : Int) : ℚ) < ((16777216 : Int) : ℚ) := by
      push_cast
      linarith
    have hle : roundHalfEven (z * 16777216) ≤ 16777215 := by
      have := Int.cast_lt.mp hlt
      omega
    have hle' : ((roundHalfEven (z * 16777216) : Int) : ℚ) ≤ 16777215 := by exact_mod_cast hle
    linarith

/-- Multiplying a float below 1 by 60 and rounding stays below 60. -/
theorem f32_lt_sixty (x : ℚ) (h0 : 0 ≤ x) (h1 : x ≤ 60 - 60 / 16777216) : f32 x < 60 := by
  have habs : |x| = x := abs_of_nonneg h0
  by_cases h32 : x < 32
  · have h := f32_err_of_abs_lt x 4 (by norm_num) (by rw [habs]; norm_num; exact h32)
    norm_num at h
    have := (abs_le.mp h).2
    linarith
  · have h32' : 32 ≤ x := not_lt.mp h32
    have hb := f32_of_binade x 5 (by norm_num) (by rw [habs]; norm_num; exact h32')
      (by rw [habs]; norm_num; linarith)
    norm_num at hb
    rw [show x / (1 / 262144) = x * 262144 by ring] at hb
    have hr : roundHalfEven (x * 262144) < 15728640 := by
      apply roundHalfEven_lt_of_lt_sub_half
      push_cast
      linarith
    have hr' : ((roundHalfEven (x * 262144) : Int) : ℚ) ≤ 15728639 := by
      have : roundHalfEven (x * 262144) ≤ 15728639 := by omega
      exact_mod_cast this
    rw [hb]
    linarith

end AS5600

namespace AS5600

/-- The fractional part of a non-negative float is a float. -/
theorem isF32_sub_floor (z : ℚ) (hz : isF32 z) (h0 : 0 ≤ z) : isF32 (z - (⌊z⌋ : ℚ)) := by
  by_cases hn : ⌊z⌋ = 0
  · rw [hn]
    simpa using hz
  · have hnpos : 1 ≤ ⌊z⌋ := by
      have := Int.floor_nonneg.mpr h0
      omega
    obtain ⟨_, hhi⟩ := roundHalfEven_ulp_bounds z
    have hzr : z = ((roundHalfEven (z / 2 ^ ulpExp z) : Int) : ℚ) * 2 ^ ulpExp z := hz.symm
    generalize roundHalfEven (z / 2 ^ ulpExp z) = r at hhi hzr
    have hge := ulpExp_ge z
    generalize ulpExp z = e at hzr hge
    by_cases hepos : 0 ≤ e
    · obtain ⟨k, hk⟩ := Int.eq_ofNat_of_zero_le hepos
      have hint : z = ((r * 2 ^ k : Int) : ℚ) := by
        rw [hzr, hk, zpow_natCast]
        push_cast
        rfl
      rw [hint, Int.floor_intCast, sub_self]
      exact f32_zero
    · obtain ⟨k, hk⟩ := Int.eq_ofNat_of_zero_le (by omega : 0 ≤ -e)
      have h2k : (2 : ℚ) ^ k * 2 ^ e = 1 := by
        rw [← zpow_natCast, ← hk, ← zpow_add₀ (by norm_num : (2 : ℚ) ≠ 0)]
        simp
      have hdiff : z - (⌊z⌋ : ℚ) = ((r - ⌊z⌋ * 2 ^ k : Int) : ℚ) * 2 ^ e := by
        push_cast
        rw [sub_mul, ← hzr, mul_assoc, h2k, mul_one]
      have hfrac := floor_frac_bounds z
      have hm0 : 0 ≤ r - ⌊z⌋ * 2 ^ k := by
        by_contra hneg
        push_neg at hneg
        have hq : ((r - ⌊z⌋ * 2 ^ k : Int) : ℚ) < 0 := by exact_mod_cast hneg
        have := mul_neg_of_neg_of_pos hq (two_zpow_pos e)
        linarith [hfrac.1]
      have hpow : (1 : Int) ≤ 2 ^ k := by
        have : (0 : Int) < 2 ^ k := pow_pos (by norm_num) k
        omega
      have hm1 : r - ⌊z⌋ * 2 ^ k < 2 ^ 24 := by
        have : (1 : Int) * 1 ≤ ⌊z⌋ * 2 ^ k := mul_le_mul hnpos hpow (by norm_num) (by omega)
        omega
      unfold isF32
      rw [hdiff]
      exact f32_of_dyadic _ _ (abs_lt.mpr ⟨by omega, hm1⟩) hge

theorem roundHalfEven_neg (q : ℚ) : roundHalfEven (-q) = -roundHalfEven q := by
  obtain ⟨h0, h1⟩ := floor_frac_bounds q
  by_cases hint : q - (⌊q⌋ : ℚ) = 0
  · have e : q = ((⌊q⌋ : Int) : ℚ) := by linarith
    rw [e, ← Int.cast_neg, roundHalfEven_intCast, roundHalfEven_intCast]
  · have hpos : 0 < q - (⌊q⌋ : ℚ) := lt_of_le_of_ne h0 (Ne.symm hint)
    have hfl : ⌊-q⌋ = -⌊q⌋ - 1 := by
      rw [Int.floor_eq_iff]
      push_cast
      constructor <;> linarith
    rcases lt_trichotomy (q - (⌊q⌋ : ℚ)) (1 / 2) with hlt | heq | hgt
    · rw [roundHalfEven_eq_of_lt_half q ⌊q⌋ (by linarith) (by linarith)]
      have := roundHalfEven_eq_of_gt_half (-q) (-⌊q⌋ - 1) (by push_cast; linarith)
        (by push_cast; linarith)
      rw [this]
      ring
    · have eq1 : q = ((⌊q⌋ : Int) : ℚ) + 1 / 2 := by linarith
      have eq2 : -q = ((-⌊q⌋ - 1 : Int) : ℚ) + 1 / 2 := by push_cast; linarith
      have t1 := roundHalfEven_tie ⌊q⌋
      have t2 := roundHalfEven_tie (-⌊q⌋ - 1)
      rw [← eq1] at t1
      rw [← eq2] at t2
      rw [t1, t2]
      split_ifs <;> omega
    · rw [roundHalfEven_eq_of_gt_half q ⌊q⌋ (by linarith) (by linarith)]
      have := roundHalfEven_eq_of_lt_half (-q) (-⌊q⌋ - 1) (by push_cast; linarith)
        (by push_cast; linarith)
      rw [this]
      ring

theorem f32_neg (x : ℚ) : f32 (-x) = -f32 x := by
  have he : ulpExp (-x) = ulpExp x := by
    unfold ulpExp
    rw [abs_neg]
    simp only [neg_eq_zero]
  unfold f32
  rw [he, neg_div, roundHalfEven_neg]
  push_cast
  ring

/-- In the normal range the rounding error is at most `2^-24` of the value. -/
theorem f32_rel_err (x : ℚ) (h : (2 : ℚ) ^ (-126 : Int) ≤ |x|) :
    |f32 x - x| ≤ |x| / 2 ^ 24 := by
  have hpos : 0 < |x| := lt_of_lt_of_le (two_zpow_pos _) h
  have hx : x ≠ 0 := abs_pos.mp hpos
  have hlog : -126 ≤ Int.log 2 |x| :=
    (Int.zpow_le_iff_le_log (by norm_num : 1 < 2) hpos).mp (by simpa using h)
  have hle : (2 : ℚ) ^ Int.log 2 |x| ≤ |x| := by
    simpa using Int.zpow_log_le_self (by norm_num : 1 < 2) hpos
  have he : ulpExp x = Int.log 2 |x| - 23 := by
    unfold ulpExp
    rw [if_neg hx, max_eq_left hlog]
  have hb := f32_sub_abs_le x
  rw [he, zpow_sub₀ (by norm_num : (2 : ℚ) ≠ 0)] at hb
  have e : (2 : ℚ) ^ Int.log 2 |x| / 2 ^ (23 : Int) / 2 = 2 ^ Int.log 2 |x| / 2 ^ 24 := by
    norm_num
    ring
  rw [e] at hb
  have : (2 : ℚ) ^ Int.log 2 |x| / 2 ^ 24 ≤ |x| / 2 ^ 24 :=
    div_le_div_of_nonneg_right hle (by norm_num)
  linarith

end AS5600

-- ============================================
-- Magnet health
-- ============================================

namespace AS5600

theorem readRegister8_lt (w : Wire) (reg : Nat) : readRegister8 w reg < 256 := by
  unfold readRegister8
  split
  · exact Nat.mod_lt _ (by decide)
  · decide

/-- Masking with a single-bit flag is non-zero exactly when that bit is set. -/
theorem and_two_pow_ne_zero (b k : Nat) : ((b &&& 2 ^ k) != 0) = b.testBit k := by
  cases h : b.testBit k with
  | false =>
    have hz : b &&& 2 ^ k = 0 := by
      apply Nat.eq_of_testBit_eq
      intro i
      rw [Nat.testBit_and, Nat.testBit_two_pow, Nat.zero_testBit]
      by_cases hki : k = i
      · subst hki; simp [h]
      · simp [hki]
    simp [hz]
  | true =>
    have hbit : (b &&& 2 ^ k).testBit k = true := by
      rw [Nat.testBit_and, h, Nat.testBit_two_pow_self]; rfl
    have hne : b &&& 2 ^ k ≠ 0 := by
      intro h0
      rw [h0, Nat.zero_testBit] at hbit
      exact Bool.noConfusion hbit
    simp [hne]

theorem status_flags (b : Nat) :
    ((b &&& AS5600_STATUS_MD) != 0) = b.testBit 5 ∧
    ((b &&& AS5600_STATUS_MH) != 0) = b.testBit 3 ∧
    ((b &&& AS5600_STATUS_ML) != 0) = b.testBit 4 :=
  ⟨and_two_pow_ne_zero b 5, and_two_pow_ne_zero b 3, and_two_pow_ne_zero b 4⟩

/-- C9. Magnet classification: on every bus, with `s` the status byte read,
`getMagnetStatus` returns `detected` = bit 0x20 of `s`, `tooStrong` = bit 0x08,
`tooWeak` = bit 0x10, `magnitude` = the value of `getMagnitude`, `agc` = the
value of `getAGC`, and `optimal` is true exactly when `detected`, not
`tooStrong`, not `tooWeak` and `1500 ≤ magnitude ≤ 3000`. -/
theorem magnet_status_definition (w : Wire) :
    (getMagnetStatus w).detected = (readRegister8 w AS5600_STATUS).testBit 5 ∧
    (getMagnetStatus w).tooStrong = (readRegister8 w AS5600_STATUS).testBit 3 ∧
    (getMagnetStatus w).tooWeak = (readRegister8 w AS5600_STATUS).testBit 4 ∧
    (getMagnetStatus w).magnitude = getMagnitude w ∧
    (getMagnetStatus w).agc = getAGC w ∧
    ((getMagnetStatus w).optimal = true ↔
      (getMagnetStatus w).detected = true ∧ (getMagnetStatus w).tooStrong = false ∧
      (getMagnetStatus w).tooWeak = false ∧
      1500 ≤ (getMagnetStatus w).magnitude ∧ (getMagnetStatus w).magnitude ≤ 3000) := by
  obtain ⟨hmd, hmh, hml⟩ := status_flags (readRegister8 w AS5600_STATUS)
  refine ⟨hmd, hmh, hml, rfl, rfl, ?_⟩
  simp only [getMagnetStatus, Bool.and_eq_true, Bool.not_eq_true', decide_eq_true_eq, ge_iff_le]
  tauto

/-- Classification on a bus delivering status 0x20, magnitude bytes 0x07 0xD0 and
gain 128, and on one delivering status 0x28 with the same magnitude. -/
theorem magnet_status_definition_witness :
    getMagnetStatus (magnetWire 0x20 0x07 0xD0 128)
      = { detected := true, tooStrong := false, tooWeak := false, magnitude := 2000,
          agc := 128, optimal := true } ∧
    ((getMagnetStatus (magnetWire 0x28 0x07 0xD0 128)).optimal = true ↔
      (getMagnetStatus (magnetWire 0x28 0x07 0xD0 128)).detected = true ∧
      (getMagnetStatus (magnetWire 0x28 0x07 0xD0 128)).tooStrong = false ∧
      (getMagnetStatus (magnetWire 0x28 0x07 0xD0 128)).tooWeak = false ∧
      1500 ≤ (getMagnetStatus (magnetWire 0x28 0x07 0xD0 128)).magnitude ∧
      (getMagnetStatus (magnetWire 0x28 0x07 0xD0 128)).magnitude ≤ 3000) :=
  ⟨by decide, (magnet_status_definition (magnetWire 0x28 0x07 0xD0 128)).2.2.2.2.2⟩

/-- C10. Magnet classification cases: with MD set, MH and ML clear and magnitude
2000 the result is `detected` and `optimal` for every AGC value; the same flags
with magnitude 500 are not `optimal`; MH set gives `tooStrong` and not `optimal`
for every magnitude and AGC value; `optimal` is the same on two buses that agree
on the status byte and the magnitude (whatever their AGC values); and `optimal`
implies `detected`. -/
theorem magnet_status_cases :
    (∀ w : Wire, (readRegister8 w AS5600_STATUS).testBit 5 = true →
      (readRegister8 w AS5600_STATUS).testBit 3 = false →
      (readRegister8 w AS5600_STATUS).testBit 4 = false → getMagnitude w = 2000 →
      (getMagnetStatus w).detected = true ∧ (getMagnetStatus w).optimal = true) ∧
    (∀ w : Wire, (readRegister8 w AS5600_STATUS).testBit 5 = true →
      (readRegister8 w AS5600_STATUS).testBit 3 = false →
      (readRegister8 w AS5600_STATUS).testBit 4 = false → getMagnitude w = 500 →
      (getMagnetStatus w).optimal = false) ∧
    (∀ w : Wire, (readRegister8 w AS5600_STATUS).testBit 3 = true →
      (getMagnetStatus w).tooStrong = true ∧ (getMagnetStatus w).optimal = false) ∧
    (∀ w w2 : Wire, readRegister8 w AS5600_STATUS = readRegister8 w2 AS5600_STATUS →
      getMagnitude w = getMagnitude w2 →
      (getMagnetStatus w).optimal = (getMagnetStatus w2).optimal) ∧
    (∀ w : Wire, (getMagnetStatus w).optimal = true → (getMagnetStatus w).detected = true) ∧
    (∀ status magHigh magLow agc : Nat,
      readRegister8 (magnetWire status magHigh magLow agc) AS5600_STATUS = status % 256 ∧
      getMagnitude (magnetWire status magHigh magLow agc)
        = getMagnitude (magnetWire status magHigh magLow 0) ∧
      getAGC (magnetWire status magHigh magLow agc) = agc % 256) := by
  have hdef : ∀ w : Wire,
      (getMagnetStatus w).detected = (readRegister8 w AS5600_STATUS).testBit 5 ∧
      (getMagnetStatus w).tooStrong = (readRegister8 w AS5600_STATUS).testBit 3 ∧
      (getMagnetStatus w).tooWeak = (readRegister8 w AS5600_STATUS).testBit 4 ∧
      (getMagnetStatus w).magnitude = getMagnitude w ∧
      (getMagnetStatus w).agc = getAGC w ∧
      ((getMagnetStatus w).optimal = true ↔
        (getMagnetStatus w).detected = true ∧ (getMagnetStatus w).tooStrong = false ∧
        (getMagnetStatus w).tooWeak = false ∧
        1500 ≤ (getMagnetStatus w).magnitude ∧ (getMagnetStatus w).magnitude ≤ 3000) := by
    intro w
    obtain ⟨hmd, hmh, hml⟩ := status_flags (readRegister8 w AS5600_STATUS)
    refine ⟨hmd, hmh, hml, rfl, rfl, ?_⟩
    simp only [getMagnetStatus, Bool.and_eq_true, Bool.not_eq_true', decide_eq_true_eq,
      ge_iff_le]
    tauto
  refine ⟨?_, ?_, ?_, ?_, ?_, ?_⟩
  · intro w h5 h3 h4 hm
    obtain ⟨hd, hs, hw, hmag, _, hopt⟩ := hdef w
    refine ⟨by rw [hd, h5], hopt.mpr ⟨by rw [hd, h5], by rw [hs, h3], by rw [hw, h4], ?_, ?_⟩⟩
    · rw [hmag, hm]; decide
    · rw [hmag, hm]; decide
  · intro w _ _ _ hm
    obtain ⟨_, _, _, hmag, _, hopt⟩ := hdef w
    cases hval : (getMagnetStatus w).optimal with
    | false => rfl
    | true =>
      have h := (hopt.mp hval).2.2.2.1
      rw [hmag, hm] at h
      exact absurd h (by decide)
  · intro w h3
    obtain ⟨_, hs, _, _, _, hopt⟩ := hdef w
    have hstrong : (getMagnetStatus w).tooStrong = true := by rw [hs, h3]
    refine ⟨hstrong, ?_⟩
    cases hval : (getMagnetStatus w).optimal with
    | false => rfl
    | true =>
      have h := (hopt.mp hval).2.1
      rw [hstrong] at h
      exact absurd h (by decide)
  · intro w w2 hst hmag
    simp only [getMagnetStatus, hst, hmag]
  · intro w hopt
    exact (((hdef w).2.2.2.2.2).mp hopt).1
  · intro status magHigh magLow agc
    refine ⟨?_, ?_, ?_⟩
    · simp [readRegister8, magnetWire, wireOf, List.lookup, AS5600_STATUS, AS5600_MAGNITUDE_H,
        AS5600_AGC]
    · simp [getMagnitude, readRegister16, readRegister8, magnetWire, wireOf, List.lookup,
        AS5600_STATUS, AS5600_MAGNITUDE_H, AS5600_AGC]
    · simp [getAGC, readRegister8, magnetWire, wireOf, List.lookup, AS5600_STATUS,
        AS5600_MAGNITUDE_H, AS5600_AGC]

/-- The three cases on concrete buses: flags 0x20 with magnitude 2000 (0x07D0)
are optimal at gain 0 and at gain 255, magnitude 500 (0x01F4) is not, and flag
MH (status 0x28) is too strong and not optimal. -/
theorem magnet_status_cases_witness :
    ((getMagnetStatus (magnetWire 0x20 0x07 0xD0 0)).detected = true ∧
      (getMagnetStatus (magnetWire 0x20 0x07 0xD0 0)).optimal = true) ∧
    ((getMagnetStatus (magnetWire 0x20 0x07 0xD0 255)).detected = true ∧
      (getMagnetStatus (magnetWire 0x20 0x07 0xD0 255)).optimal = true) ∧
    (getMagnetStatus (magnetWire 0x20 0x01 0xF4 77)).optimal = false ∧
    ((getMagnetStatus (magnetWire 0x28 0x07 0xD0 77)).tooStrong = true ∧
      (getMagnetStatus (magnetWire 0x28 0x07 0xD0 77)).optimal = false) :=
  ⟨magnet_status_cases.1 (magnetWire 0x20 0x07 0xD0 0) (by decide) (by decide) (by decide)
      (by decide),
   magnet_status_cases.1 (magnetWire 0x20 0x07 0xD0 255) (by decide) (by decide) (by decide)
      (by decide),
   magnet_status_cases.2.1 (magnetWire 0x20 0x01 0xF4 77) (by decide) (by decide) (by decide)
      (by decide),
   magnet_status_cases.2.2.1 (magnetWire 0x28 0x07 0xD0 77) (by decide)⟩

end AS5600

-- ============================================
-- Register assembly and the angle record
-- ============================================

namespace AS5600

theorem shiftLeft8_or (h l : Nat) (hl : l < 256) : (h <<< 8) ||| l = 256 * h + l := by
  have hor : 2 ^ 8 * h + l = 2 ^ 8 * h ||| l := Nat.mul_add_lt_is_or hl h
  rw [Nat.shiftLeft_eq, Nat.mul_comm]
  exact hor.symm

theorem mask12 (x : Nat) : x &&& 0x0FFF = x % 4096 :=
  Nat.and_pow_two_sub_one_eq_mod x 12

theorem readRegister16_eq (w : Wire) (regHigh : Nat) :
    readRegister16 w regHigh
      = 256 * readRegister8 w regHigh + readRegister8 w (regHigh + 1) := by
  have hh := readRegister8_lt w regHigh
  have hl := readRegister8_lt w (regHigh + 1)
  unfold readRegister16
  simp only
  rw [Nat.mod_eq_of_lt (by omega : readRegister8 w regHigh < 65536), shiftLeft8_or _ _ hl]
  exact Nat.mod_eq_of_lt (by omega)

/-- Masked 16-bit read: the low 12 bits of the assembled value. -/
theorem masked_read (w : Wire) (regHigh : Nat) :
    readRegister16 w regHigh &&& 0x0FFF
        = (256 * readRegister8 w regHigh + readRegister8 w (regHigh + 1)) % 4096 ∧
    readRegister16 w regHigh &&& 0x0FFF
        = 256 * (readRegister8 w regHigh % 16) + readRegister8 w (regHigh + 1) ∧
    readRegister16 w regHigh &&& 0x0FFF ≤ 4095 := by
  have hl := readRegister8_lt w (regHigh + 1)
  rw [mask12, readRegister16_eq]
  refine ⟨rfl, ?_, ?_⟩ <;> omega

theorem readRegister8_pairWire (regHigh highByte lowByte : Nat) (hreg : regHigh < 255) :
    readRegister8 (pairWire regHigh highByte lowByte) regHigh = highByte % 256 ∧
    readRegister8 (pairWire regHigh highByte lowByte) (regHigh + 1) = lowByte % 256 := by
  have h1 : regHigh % 256 = regHigh := Nat.mod_eq_of_lt (by omega)
  have h2 : (regHigh + 1) % 256 = regHigh + 1 := Nat.mod_eq_of_lt (by omega)
  constructor
  · simp [readRegister8, pairWire, wireOf, List.lookup, h1]
  · have hne : (regHigh + 1 == regHigh) = false := by
      rw [beq_eq_false_iff_ne]; omega
    simp [readRegister8, pairWire, wireOf, List.lookup, h2, hne]

/-- C12. 12-bit register assembly: `readRegister16` returns `256*h + l` for the
bytes `h`, `l` delivered by its two 8-bit reads (high byte first); `readRawAngle`,
`readAngle` and `getMagnitude` return `(256*h + l) mod 4096 = 256*(h mod 16) + l`,
always in `[0, 4095]`; two buses whose high bytes agree on the low four bits and
whose low bytes agree give the same result; and on a bus holding any byte pair
`(h, l)` at a register pair the 16-bit read is `256*h + l`. -/
theorem register_assembly :
    (∀ (w : Wire) (regHigh : Nat),
      readRegister16 w regHigh
        = 256 * readRegister8 w regHigh + readRegister8 w (regHigh + 1)) ∧
    (∀ w : Wire,
      readRawAngle w = (256 * readRegister8 w AS5600_RAW_ANGLE_H
          + readRegister8 w (AS5600_RAW_ANGLE_H + 1)) % 4096 ∧
      readRawAngle w = 256 * (readRegister8 w AS5600_RAW_ANGLE_H % 16)
          + readRegister8 w (AS5600_RAW_ANGLE_H + 1) ∧
      readRawAngle w ≤ 4095) ∧
    (∀ w : Wire,
      readAngle w = (256 * readRegister8 w AS5600_ANGLE_H
          + readRegister8 w (AS5600_ANGLE_H + 1)) % 4096 ∧
      readAngle w = 256 * (readRegister8 w AS5600_ANGLE_H % 16)
          + readRegister8 w (AS5600_ANGLE_H + 1) ∧
      readAngle w ≤ 4095) ∧
    (∀ w : Wire,
      getMagnitude w = (256 * readRegister8 w AS5600_MAGNITUDE_H
          + readRegister8 w (AS5600_MAGNITUDE_H + 1)) % 4096 ∧
      getMagnitude w = 256 * (readRegister8 w AS5600_MAGNITUDE_H % 16)
          + readRegister8 w (AS5600_MAGNITUDE_H + 1) ∧
      getMagnitude w ≤ 4095) ∧
    (∀ (w w2 : Wire) (regHigh : Nat),
      readRegister8 w regHigh % 16 = readRegister8 w2 regHigh % 16 →
      readRegister8 w (regHigh + 1) = readRegister8 w2 (regHigh + 1) →
      readRegister16 w regHigh &&& 0x0FFF = readRegister16 w2 regHigh &&& 0x0FFF) ∧
    (∀ regHigh h l : Nat, regHigh < 255 → h < 256 → l < 256 →
      readRegister16 (pairWire regHigh h l) regHigh = 256 * h + l ∧
      readRegister16 (pairWire regHigh h l) regHigh &&& 0x0FFF = 256 * (h % 16) + l) := by
  refine ⟨readRegister16_eq, fun w => masked_read w AS5600_RAW_ANGLE_H,
    fun w => masked_read w AS5600_ANGLE_H, fun w => masked_read w AS5600_MAGNITUDE_H, ?_, ?_⟩
  · intro w w2 regHigh hhigh hlow
    rw [(masked_read w regHigh).2.1, (masked_read w2 regHigh).2.1, hhigh, hlow]
  · intro regHigh h l hreg hh hl
    obtain ⟨h8, l8⟩ := readRegister8_pairWire regHigh h l hreg
    rw [Nat.mod_eq_of_lt hh] at h8
    rw [Nat.mod_eq_of_lt hl] at l8
    constructor
    · rw [readRegister16_eq, h8, l8]
    · rw [(masked_read (pairWire regHigh h l) regHigh).2.1, h8, l8]

/-- Assembly on concrete bytes: high byte 0xAB and low byte 0xCD at the raw-angle
pair read as 0xABCD, masked to 0xBCD; the high byte 0x0B gives the same angle. -/
theorem register_assembly_witness :
    (readRegister16 (pairWire AS5600_RAW_ANGLE_H 0xAB 0xCD) AS5600_RAW_ANGLE_H = 0xABCD ∧
      readRegister16 (pairWire AS5600_RAW_ANGLE_H 0xAB 0xCD) AS5600_RAW_ANGLE_H &&& 0x0FFF
        = 0xBCD) ∧
    readRawAngle (pairWire AS5600_RAW_ANGLE_H 0xAB 0xCD)
      = readRawAngle (pairWire AS5600_RAW_ANGLE_H 0x0B 0xCD) :=
  ⟨register_assembly.2.2.2.2.2 AS5600_RAW_ANGLE_H 0xAB 0xCD (by decide) (by decide) (by decide),
   register_assembly.2.2.2.2.1 _ _ AS5600_RAW_ANGLE_H (by decide) (by decide)⟩

end AS5600

-- ============================================
-- Multi-revolution tracker: stored values
-- ============================================

namespace AS5600

theorem wrapInt_of_range (x : Int) (hlo : INT_MIN ≤ x) (hhi : x ≤ INT_MAX) : wrapInt x = x := by
  unfold INT_MIN at hlo
  unfold INT_MAX at hhi
  unfold wrapInt
  omega

theorem wrapInt_range (x : Int) : INT_MIN ≤ wrapInt x ∧ wrapInt x ≤ INT_MAX := by
  unfold INT_MIN INT_MAX wrapInt
  omega

theorem intToFloat_of_range (n : Int) (hlo : INT_MIN ≤ n) (hhi : n ≤ INT_MAX) :
    intToFloat n = n := by
  unfold INT_MIN at hlo
  unfold INT_MAX at hhi
  exact f32_intCast n (abs_lt.mpr ⟨by omega, by omega⟩)

/-- The product `_revolutionCount * 360.0` is exact for every `int` count. -/
theorem f32_count_mul (n : Int) (hlo : INT_MIN ≤ n) (hhi : n ≤ INT_MAX) :
    f32 (intToFloat n * 360) = (n : ℚ) * 360 := by
  rw [intToFloat_of_range n hlo hhi]
  unfold INT_MIN at hlo
  unfold INT_MAX at hhi
  have h := f32_intCast (n * 360) (abs_lt.mpr ⟨by omega, by omega⟩)
  push_cast at h
  exact h

theorem rawToDegrees_eq_div (raw : Nat) : rawToDegrees raw = ((raw * 45 : Int) : ℚ) / 2 ^ 9 := by
  unfold rawToDegrees
  push_cast
  ring

/-- Every sensor angle is a float. -/
theorem isF32_rawToDegrees (raw : Nat) (hraw : raw ≤ 65535) : isF32 (rawToDegrees raw) := by
  unfold isF32
  rw [rawToDegrees_eq_div]
  exact f32_div_two_pow _ 9 (abs_lt.mpr ⟨by omega, by omega⟩) (by norm_num)

/-- The source expression `(rawValue * 360.0) / 4096.0` rounds nowhere on a
`uint16_t` argument. -/
theorem rawToDegrees_eq_rounded (raw : Nat) (hraw : raw ≤ 65535) :
    rawToDegrees raw = f32 (f32 (f32 (raw : ℚ) * 360) / 4096) := by
  have h1 : f32 (raw : ℚ) = raw := by
    have := f32_intCast (raw : Int) (abs_lt.mpr ⟨by omega, by omega⟩)
    simpa using this
  have h2 : f32 ((raw : ℚ) * 360) = (raw : ℚ) * 360 := by
    have := f32_of_dyadic (raw * 45) 3 (abs_lt.mpr ⟨by omega, by omega⟩) (by norm_num)
    have e : (((raw * 45 : Nat) : Int) : ℚ) * 2 ^ (3 : Int) = (raw : ℚ) * 360 := by
      push_cast
      norm_num
      ring
    rw [← e]
    exact_mod_cast this
  rw [h1, h2]
  exact (isF32_rawToDegrees raw hraw).symm

/-- For counts from -91 to 90 the sum `count * 360 + angle` is a float for every
sensor angle. -/
theorem isF32_total_of_sensor (n : Int) (raw : Nat) (hraw : raw ≤ 4095) (hlo : -91 ≤ n)
    (hhi : n ≤ 90) : isF32 ((n : ℚ) * 360 + rawToDegrees raw) := by
  have e : (n : ℚ) * 360 + rawToDegrees raw = ((n * 184320 + raw * 45 : Int) : ℚ) / 2 ^ 9 := by
    unfold rawToDegrees
    push_cast
    ring
  unfold isF32
  rw [e]
  exact f32_div_two_pow _ 9 (abs_lt.mpr ⟨by omega, by omega⟩) (by norm_num)

theorem updateAt_lastAngle (s : AS5600) (c : ℚ) : (updateAt s c)._lastAngle = c := rfl

theorem updateAt_totalAngle (s : AS5600) (c : ℚ) :
    (updateAt s c)._totalAngle
      = f32 (f32 (intToFloat (updateAt s c)._revolutionCount * 360) + c) := rfl

/-- The three outcomes of an update, by the branch taken. -/
theorem updateAt_cases (s : AS5600) (c : ℚ) :
    ((s._lastAngle > 270 ∧ c < 90) ∧
      (updateAt s c)._revolutionCount = wrapInt (s._revolutionCount + 1)) ∨
    ((s._lastAngle < 90 ∧ c > 270) ∧
      (updateAt s c)._revolutionCount = wrapInt (s._revolutionCount - 1)) ∨
    (¬ (s._lastAngle > 270 ∧ c < 90) ∧ ¬ (s._lastAngle < 90 ∧ c > 270) ∧
      (updateAt s c)._revolutionCount = s._revolutionCount) := by
  by_cases h1 : s._lastAngle > 270 ∧ c < 90
  · exact Or.inl ⟨h1, by simp only [updateAt, if_pos h1]⟩
  · by_cases h2 : s._lastAngle < 90 ∧ c > 270
    · exact Or.inr (Or.inl ⟨h2, by simp only [updateAt, if_neg h1, if_pos h2]⟩)
    · exact Or.inr (Or.inr ⟨h1, h2, by simp only [updateAt, if_neg h1, if_neg h2]⟩)

theorem updateAt_countInRange (s : AS5600) (c : ℚ) (hs : CountInRange s) :
    CountInRange (updateAt s c) := by
  unfold CountInRange
  rcases updateAt_cases s c with ⟨_, e⟩ | ⟨_, e⟩ | ⟨_, _, e⟩
  · rw [e]; exact wrapInt_range _
  · rw [e]; exact wrapInt_range _
  · rw [e]; exact hs

/-- When the new count is an `int` value, the stored total is the exact sum
rounded once. -/
theorem updateAt_totalAngle_rounded (s : AS5600) (c : ℚ)
    (hlo : INT_MIN ≤ (updateAt s c)._revolutionCount)
    (hhi : (updateAt s c)._revolutionCount ≤ INT_MAX) :
    (updateAt s c)._totalAngle = f32 (((updateAt s c)._revolutionCount : ℚ) * 360 + c) := by
  rw [updateAt_totalAngle, f32_count_mul _ hlo hhi]

theorem updateAt_totalAngle_exact (s : AS5600) (c : ℚ)
    (hlo : INT_MIN ≤ (updateAt s c)._revolutionCount)
    (hhi : (updateAt s c)._revolutionCount ≤ INT_MAX)
    (hc : isF32 (((updateAt s c)._revolutionCount : ℚ) * 360 + c)) :
    (updateAt s c)._totalAngle = ((updateAt s c)._revolutionCount : ℚ) * 360 + c := by
  rw [updateAt_totalAngle_rounded s c hlo hhi]
  exact hc

/-- After an update on a sensor angle with a new count from -91 to 90 the stored
total is exact. -/
theorem updateAt_totalAngle_sensor (s : AS5600) (raw : Nat) (hraw : raw ≤ 4095)
    (hlo : -91 ≤ (updateAt s (rawToDegrees raw))._revolutionCount)
    (hhi : (updateAt s (rawToDegrees raw))._revolutionCount ≤ 90) :
    (updateAt s (rawToDegrees raw))._totalAngle
      = ((updateAt s (rawToDegrees raw))._revolutionCount : ℚ) * 360 + rawToDegrees raw := by
  apply updateAt_totalAngle_exact
  · unfold INT_MIN; omega
  · unfold INT_MAX; omega
  · exact isF32_total_of_sensor _ raw hraw hlo hhi

/-- Rounding of a value halfway between two floats whose lower neighbour has an
even significand. -/
theorem f32_eval_tie_even (x : ℚ) (E f : Int) (hE : -126 ≤ E) (hlo : (2 : ℚ) ^ E ≤ |x|)
    (hhi : |x| < (2 : ℚ) ^ (E + 1)) (hq : x / 2 ^ (E - 23) = (f : ℚ) + 1 / 2)
    (hf : f % 2 = 0) : f32 x = (f : ℚ) * 2 ^ (E - 23) := by
  apply f32_eval x E f hE hlo hhi
  rw [hq, roundHalfEven_tie, if_pos hf]

/-- Rounding of a value halfway between two floats whose lower neighbour has an
odd significand. -/
theorem f32_eval_tie_odd (x : ℚ) (E f : Int) (hE : -126 ≤ E) (hlo : (2 : ℚ) ^ E ≤ |x|)
    (hhi : |x| < (2 : ℚ) ^ (E + 1)) (hq : x / 2 ^ (E - 23) = (f : ℚ) + 1 / 2)
    (hf : f % 2 = 1) : f32 x = ((f + 1 : Int) : ℚ) * 2 ^ (E - 23) := by
  apply f32_eval x E (f + 1) hE hlo hhi
  rw [hq, roundHalfEven_tie, if_neg (by omega)]

theorem f32_eval_down (x : ℚ) (E f : Int) (hE : -126 ≤ E) (hlo : (2 : ℚ) ^ E ≤ |x|)
    (hhi : |x| < (2 : ℚ) ^ (E + 1)) (h1 : (f : ℚ) ≤ x / 2 ^ (E - 23))
    (h2 : x / 2 ^ (E - 23) < (f : ℚ) + 1 / 2) : f32 x = (f : ℚ) * 2 ^ (E - 23) :=
  f32_eval x E f hE hlo hhi (roundHalfEven_eq_of_lt_half _ f h1 h2)

theorem f32_eval_up (x : ℚ) (E f : Int) (hE : -126 ≤ E) (hlo : (2 : ℚ) ^ E ≤ |x|)
    (hhi : |x| < (2 : ℚ) ^ (E + 1)) (h1 : (f : ℚ) + 1 / 2 < x / 2 ^ (E - 23))
    (h2 : x / 2 ^ (E - 23) < (f : ℚ) + 1) : f32 x = ((f + 1 : Int) : ℚ) * 2 ^ (E - 23) :=
  f32_eval x E (f + 1) hE hlo hhi (roundHalfEven_eq_of_gt_half _ f h1 h2)

end AS5600

-- ============================================
-- Multi-revolution tracker: invariant
-- ============================================

namespace AS5600

theorem invariant_new (address : Nat) : TrackerInvariant (new address) := by
  simp [TrackerInvariant, new]

theorem invariant_resetAt (s : AS5600) (angle : ℚ) : TrackerInvariant (resetAt s angle) := by
  simp [TrackerInvariant, resetAt]

theorem intToFloat_zero : intToFloat 0 = 0 := by
  unfold intToFloat
  simpa using f32_zero

theorem invariantFloat_new (address : Nat) : TrackerInvariantFloat (new address) := by
  simp [TrackerInvariantFloat, new, intToFloat_zero, f32_zero]

theorem invariantFloat_resetAt (s : AS5600) (angle : ℚ) (h : isF32 angle) :
    TrackerInvariantFloat (resetAt s angle) := by
  unfold isF32 at h
  simp [TrackerInvariantFloat, resetAt, intToFloat_zero, f32_zero, h]

theorem invariantFloat_updateAt (s : AS5600) (currentAngle : ℚ) :
    TrackerInvariantFloat (updateAt s currentAngle) := rfl

theorem invariantFloat_runCalls (calls : List TrackerCall) :
    ∀ s : AS5600, TrackerInvariantFloat s → (∀ call ∈ calls, isF32 call.angle) →
      TrackerInvariantFloat (runCalls s calls) := by
  induction calls with
  | nil => intro s hs _; simpa [runCalls] using hs
  | cons call rest ih =>
    intro s _ hall
    have hcall := hall call (List.mem_cons_self call rest)
    have hrest : ∀ c ∈ rest, isF32 c.angle := fun c hc => hall c (List.mem_cons_of_mem call hc)
    have hstep : TrackerInvariantFloat (applyCall s call) := by
      cases call with
      | reset angle => exact invariantFloat_resetAt s angle hcall
      | update angle => exact invariantFloat_updateAt s angle
    simpa [runCalls] using ih (applyCall s call) hstep hrest

/-- Exact relation for counts from -91 to 90 along calls on sensor angles. -/
theorem invariant_runCalls_sensor (calls : List TrackerCall) :
    ∀ s : AS5600,
      (-91 ≤ s._revolutionCount → s._revolutionCount ≤ 90 → TrackerInvariant s) →
      (∀ call ∈ calls, ∃ raw : Nat, raw ≤ 4095 ∧ call.angle = rawToDegrees raw) →
      -91 ≤ (runCalls s calls)._revolutionCount → (runCalls s calls)._revolutionCount ≤ 90 →
      TrackerInvariant (runCalls s calls) := by
  induction calls with
  | nil => intro s hs _ hlo hhi; exact hs hlo hhi
  | cons call rest ih =>
    intro s _ hall
    obtain ⟨raw, hraw, hangle⟩ := hall call (List.mem_cons_self call rest)
    have hrest : ∀ c ∈ rest, ∃ raw : Nat, raw ≤ 4095 ∧ c.angle = rawToDegrees raw :=
      fun c hc => hall c (List.mem_cons_of_mem call hc)
    have hstep : -91 ≤ (applyCall s call)._revolutionCount →
        (applyCall s call)._revolutionCount ≤ 90 → TrackerInvariant (applyCall s call) := by
      intro hlo hhi
      cases call with
      | reset angle => exact invariant_resetAt s angle
      | update angle =>
        have e : angle = rawToDegrees raw := hangle
        subst e
        exact updateAt_totalAngle_sensor s raw hraw hlo hhi
    simpa [runCalls] using ih (applyCall s call) hstep hrest

theorem readAngleDegrees_sensor (w : Wire) :
    ∃ raw : Nat, raw ≤ 4095 ∧ readAngleDegrees w = rawToDegrees raw :=
  ⟨readRawAngle w, (masked_read w AS5600_RAW_ANGLE_H).2.2, rfl⟩

/-- C1 (amended). In the constructed state and after every reset
`totalAngle = revolutionCount*360 + lastAngle` holds exactly (a reset sets the
counter to 0 and both angles to the sample, whatever the prior state). Every
update stores `totalAngle` as `revolutionCount*360 + lastAngle` evaluated in
float, so this rounded relation holds in every state reached from the
constructor by calls on float samples. After an update on a sensor angle the
exact relation holds whenever the new count lies between -91 and 90, hence in
every such state reached by calls on sensor angles. The bus-level methods are
these steps at the sensor angle read. -/
theorem tracker_invariant :
    (∀ address : Nat, TrackerInvariant (new address) ∧ TrackerInvariantFloat (new address)) ∧
    (∀ (s : AS5600) (angle : ℚ),
      (resetAt s angle)._revolutionCount = 0 ∧ (resetAt s angle)._lastAngle = angle ∧
      (resetAt s angle)._totalAngle = angle ∧ TrackerInvariant (resetAt s angle)) ∧
    (∀ (s : AS5600) (angle : ℚ), TrackerInvariantFloat (updateAt s angle)) ∧
    (∀ (address : Nat) (calls : List TrackerCall), (∀ call ∈ calls, isF32 call.angle) →
      TrackerInvariantFloat (runCalls (new address) calls)) ∧
    (∀ (s : AS5600) (raw : Nat), raw ≤ 4095 →
      -91 ≤ (updateAt s (rawToDegrees raw))._revolutionCount →
      (updateAt s (rawToDegrees raw))._revolutionCount ≤ 90 →
      TrackerInvariant (updateAt s (rawToDegrees raw))) ∧
    (∀ (address : Nat) (calls : List TrackerCall),
      (∀ call ∈ calls, ∃ raw : Nat, raw ≤ 4095 ∧ call.angle = rawToDegrees raw) →
      -91 ≤ (runCalls (new address) calls)._revolutionCount →
      (runCalls (new address) calls)._revolutionCount ≤ 90 →
      TrackerInvariant (runCalls (new address) calls)) ∧
    (∀ (s : AS5600) (w : Wire),
      (resetRevolutionCount s w)._revolutionCount = 0 ∧
      (resetRevolutionCount s w)._lastAngle = readAngleDegrees w ∧
      (resetRevolutionCount s w)._totalAngle = readAngleDegrees w ∧
      TrackerInvariant (resetRevolutionCount s w) ∧
      TrackerInvariantFloat (updateMultiRevolution s w) ∧
      (-91 ≤ (updateMultiRevolution s w)._revolutionCount →
        (updateMultiRevolution s w)._revolutionCount ≤ 90 →
        TrackerInvariant (updateMultiRevolution s w))) := by
  refine ⟨fun a => ⟨invariant_new a, invariantFloat_new a⟩, ?_, invariantFloat_updateAt, ?_,
    updateAt_totalAngle_sensor, ?_, ?_⟩
  · intro s angle
    exact ⟨rfl, rfl, rfl, invariant_resetAt s angle⟩
  · intro address calls hall
    exact invariantFloat_runCalls calls (new address) (invariantFloat_new address) hall
  · intro address calls hall hlo hhi
    exact invariant_runCalls_sensor calls (new address) (fun _ _ => invariant_new address) hall
      hlo hhi
  · intro s w
    obtain ⟨raw, hraw, hw⟩ := readAngleDegrees_sensor w
    refine ⟨rfl, rfl, rfl, invariant_resetAt s _, invariantFloat_updateAt s _, ?_⟩
    intro hlo hhi
    unfold updateMultiRevolution at hlo hhi ⊢
    rw [hw] at hlo hhi ⊢
    exact updateAt_totalAngle_sensor s raw hraw hlo hhi

/-- The relations on a concrete run: reset on raw code 3982, then updates on raw
codes 3982 and 114 (a forward wrap), starting from the constructed state. -/
theorem tracker_invariant_witness :
    TrackerInvariantFloat (runCalls (new AS5600_ADDRESS)
      [TrackerCall.reset (rawToDegrees 3982), TrackerCall.update (rawToDegrees 3982),
       TrackerCall.update (rawToDegrees 114)]) ∧
    (runCalls (new AS5600_ADDRESS)
      [TrackerCall.reset (rawToDegrees 3982), TrackerCall.update (rawToDegrees 3982),
       TrackerCall.update (rawToDegrees 114)])._revolutionCount = 1 ∧
    TrackerInvariant (runCalls (new AS5600_ADDRESS)
      [TrackerCall.reset (rawToDegrees 3982), TrackerCall.update (rawToDegrees 3982),
       TrackerCall.update (rawToDegrees 114)]) := by
  have hall : ∀ call ∈ [TrackerCall.reset (rawToDegrees 3982),
      TrackerCall.update (rawToDegrees 3982), TrackerCall.update (rawToDegrees 114)],
      ∃ raw : Nat, raw ≤ 4095 ∧ call.angle = rawToDegrees raw := by
    intro call hcall
    simp only [List.mem_cons, List.mem_singleton, List.not_mem_nil, or_false] at hcall
    rcases hcall with rfl | rfl | rfl
    · exact ⟨3982, by decide, rfl⟩
    · exact ⟨3982, by decide, rfl⟩
    · exact ⟨114, by decide, rfl⟩
  have hrc : (runCalls (new AS5600_ADDRESS)
      [TrackerCall.reset (rawToDegrees 3982), TrackerCall.update (rawToDegrees 3982),
       TrackerCall.update (rawToDegrees 114)])._revolutionCount = 1 := by
    norm_num [runCalls, applyCall, updateAt, resetAt, rawToDegrees, wrapInt]
  refine ⟨tracker_invariant.2.2.2.1 AS5600_ADDRESS _ ?_, hrc,
    tracker_invariant.2.2.2.2.2.1 AS5600_ADDRESS _ hall (by rw [hrc]; norm_num)
      (by rw [hrc]; norm_num)⟩
  intro call hcall
  obtain ⟨raw, hraw, e⟩ := hall call hcall
  rw [e]
  exact isF32_rawToDegrees raw (by omega)

end AS5600

-- ============================================
-- Multi-revolution tracker: wraps and stability
-- ============================================

namespace AS5600

theorem f32_eval_tie_even_pos (x : ℚ) (E f : Int) (hE : -126 ≤ E) (hlo : (2 : ℚ) ^ E ≤ x)
    (hhi : x < (2 : ℚ) ^ (E + 1)) (hq : x / 2 ^ (E - 23) = (f : ℚ) + 1 / 2)
    (hf : f % 2 = 0) : f32 x = (f : ℚ) * 2 ^ (E - 23) := by
  have habs : |x| = x := abs_of_pos (lt_of_lt_of_le (two_zpow_pos E) hlo)
  exact f32_eval_tie_even x E f hE (by rw [habs]; exact hlo) (by rw [habs]; exact hhi) hq hf

theorem f32_eval_tie_odd_pos (x : ℚ) (E f : Int) (hE : -126 ≤ E) (hlo : (2 : ℚ) ^ E ≤ x)
    (hhi : x < (2 : ℚ) ^ (E + 1)) (hq : x / 2 ^ (E - 23) = (f : ℚ) + 1 / 2)
    (hf : f % 2 = 1) : f32 x = ((f + 1 : Int) : ℚ) * 2 ^ (E - 23) := by
  have habs : |x| = x := abs_of_pos (lt_of_lt_of_le (two_zpow_pos E) hlo)
  exact f32_eval_tie_odd x E f hE (by rw [habs]; exact hlo) (by rw [habs]; exact hhi) hq hf

theorem f32_eval_down_pos (x : ℚ) (E f : Int) (hE : -126 ≤ E) (hlo : (2 : ℚ) ^ E ≤ x)
    (hhi : x < (2 : ℚ) ^ (E + 1)) (h1 : (f : ℚ) ≤ x / 2 ^ (E - 23))
    (h2 : x / 2 ^ (E - 23) < (f : ℚ) + 1 / 2) : f32 x = (f : ℚ) * 2 ^ (E - 23) := by
  have habs : |x| = x := abs_of_pos (lt_of_lt_of_le (two_zpow_pos E) hlo)
  exact f32_eval_down x E f hE (by rw [habs]; exact hlo) (by rw [habs]; exact hhi) h1 h2

theorem f32_eval_up_pos (x : ℚ) (E f : Int) (hE : -126 ≤ E) (hlo : (2 : ℚ) ^ E ≤ x)
    (hhi : x < (2 : ℚ) ^ (E + 1)) (h1 : (f : ℚ) + 1 / 2 < x / 2 ^ (E - 23))
    (h2 : x / 2 ^ (E - 23) < (f : ℚ) + 1) : f32 x = ((f + 1 : Int) : ℚ) * 2 ^ (E - 23) := by
  have habs : |x| = x := abs_of_pos (lt_of_lt_of_le (two_zpow_pos E) hlo)
  exact f32_eval_up x E f hE (by rw [habs]; exact hlo) (by rw [habs]; exact hhi) h1 h2

/-- Stored total at count 100 and raw code 1: the tie at 36000.087890625 falls to
36000.0859375. -/
theorem f32_total_100_1 : f32 ((100 : ℚ) * 360 + rawToDegrees 1) = 36000.0859375 := by
  have h := f32_eval_tie_even_pos ((100 : ℚ) * 360 + rawToDegrees 1) 15 9216022 (by norm_num)
    (by norm_num [rawToDegrees]) (by norm_num [rawToDegrees]) (by norm_num [rawToDegrees])
    (by decide)
  rw [h]
  norm_num

/-- An update changes the counter only on one of the two threshold crossings. -/
theorem updateAt_count_ne (s : AS5600) (c : ℚ)
    (h : (updateAt s c)._revolutionCount ≠ s._revolutionCount) :
    (s._lastAngle > 270 ∧ c < 90) ∨ (s._lastAngle < 90 ∧ c > 270) := by
  by_contra hno
  push_neg at hno
  apply h
  have h1 : ¬ (s._lastAngle > 270 ∧ c < 90) := fun hc => absurd hc.2 (not_lt.mpr (hno.1 hc.1))
  have h2 : ¬ (s._lastAngle < 90 ∧ c > 270) := fun hc => absurd hc.2 (not_lt.mpr (hno.2 hc.1))
  simp only [updateAt, if_neg h1, if_neg h2]

/-- A sample inside the band `[90, 270]` never changes the counter. -/
theorem updateAt_count_band (s : AS5600) (c : ℚ) (hlo : 90 ≤ c) (hhi : c ≤ 270) :
    (updateAt s c)._revolutionCount = s._revolutionCount := by
  by_contra hne
  rcases updateAt_count_ne s c hne with h | h
  · linarith [h.2]
  · linarith [h.2]

theorem updateAll_count_band (samples : List ℚ) :
    ∀ s : AS5600, (∀ c ∈ samples, 90 ≤ c ∧ c ≤ 270) →
      (updateAll s samples)._revolutionCount = s._revolutionCount := by
  induction samples with
  | nil => intro s _; rfl
  | cons c rest ih =>
    intro s hall
    have hc := hall c (List.mem_cons_self c rest)
    have hrest : ∀ d ∈ rest, 90 ≤ d ∧ d ≤ 270 := fun d hd => hall d (List.mem_cons_of_mem c hd)
    have hstep := ih (updateAt s c) hrest
    simp only [updateAll, List.foldl_cons] at hstep ⊢
    rw [hstep, updateAt_count_band s c hc.1 hc.2]

/-- C5. Stability: from any state, updates over any finite sequence of samples
that all lie in `[90, 270]` leave `revolutionCount` at its initial value; and a
single update changes `revolutionCount` only if `lastAngle > 270` and the sample
is `< 90`, or `lastAngle < 90` and the sample is `> 270`. -/
theorem tracker_stability :
    (∀ (s : AS5600) (samples : List ℚ), (∀ c ∈ samples, 90 ≤ c ∧ c ≤ 270) →
      (updateAll s samples)._revolutionCount = s._revolutionCount) ∧
    (∀ (s : AS5600) (c : ℚ), (updateAt s c)._revolutionCount ≠ s._revolutionCount →
      (s._lastAngle > 270 ∧ c < 90) ∨ (s._lastAngle < 90 ∧ c > 270)) ∧
    (∀ (s : AS5600) (w : Wire),
      (updateMultiRevolution s w)._revolutionCount ≠ s._revolutionCount →
      (s._lastAngle > 270 ∧ readAngleDegrees w < 90) ∨
      (s._lastAngle < 90 ∧ readAngleDegrees w > 270)) :=
  ⟨fun s samples h => updateAll_count_band samples s h, updateAt_count_ne,
   fun s w h => updateAt_count_ne s (readAngleDegrees w) h⟩

/-- Stability on a concrete run: from a state left at 350 with count 3, the
samples 90, 180, 270, 100 keep the count at 3. -/
theorem tracker_stability_witness :
    (updateAll { _address := AS5600_ADDRESS, _revolutionCount := 3, _lastAngle := 350,
                 _totalAngle := 1430 } [90, 180, 270, 100])._revolutionCount = 3 :=
  tracker_stability.1 _ [90, 180, 270, 100] (by
    intro c hc
    simp only [List.mem_cons, List.mem_singleton, List.not_mem_nil, or_false] at hc
    rcases hc with rfl | rfl | rfl | rfl <;> norm_num)

theorem updateAt_incr (s : AS5600) (c : ℚ) (h : s._lastAngle > 270 ∧ c < 90)
    (hmin : INT_MIN ≤ s._revolutionCount) (hmax : s._revolutionCount < INT_MAX) :
    (updateAt s c)._revolutionCount = s._revolutionCount + 1 := by
  have e : (updateAt s c)._revolutionCount = wrapInt (s._revolutionCount + 1) := by
    simp only [updateAt, if_pos h]
  rw [e]
  apply wrapInt_of_range <;> omega

theorem updateAt_decr (s : AS5600) (c : ℚ) (h : s._lastAngle < 90 ∧ c > 270)
    (hmin : INT_MIN < s._revolutionCount) (hmax : s._revolutionCount ≤ INT_MAX) :
    (updateAt s c)._revolutionCount = s._revolutionCount - 1 := by
  have h1 : ¬ (s._lastAngle > 270 ∧ c < 90) := fun hc => by linarith [h.1, hc.1]
  have e : (updateAt s c)._revolutionCount = wrapInt (s._revolutionCount - 1) := by
    simp only [updateAt, if_neg h1, if_pos h]
  rw [e]
  apply wrapInt_of_range <;> omega

/-- A count that went up by one was incremented on the forward branch. -/
theorem updateAt_incr_branch (s : AS5600) (c : ℚ)
    (h : (updateAt s c)._revolutionCount = s._revolutionCount + 1) :
    s._lastAngle > 270 ∧ c < 90 := by
  rcases updateAt_cases s c with ⟨hb, _⟩ | ⟨_, e⟩ | ⟨_, _, e⟩
  · exact hb
  · rw [e] at h
    unfold wrapInt at h
    omega
  · rw [e] at h
    omega

/-- A count that went down by one was decremented on the reverse branch. -/
theorem updateAt_decr_branch (s : AS5600) (c : ℚ)
    (h : (updateAt s c)._revolutionCount = s._revolutionCount - 1) :
    s._lastAngle < 90 ∧ c > 270 := by
  rcases updateAt_cases s c with ⟨_, e⟩ | ⟨hb, _⟩ | ⟨_, _, e⟩
  · rw [e] at h
    unfold wrapInt at h
    omega
  · exact hb
  · rw [e] at h
    omega

/-- C3 (amended). Forward wrap: from any state with `lastAngle > 270` whose count
is an `int` below `INT_MAX`, an update on a sample `c < 90` increases
`revolutionCount` by exactly 1, sets `lastAngle = c`, and stores in `totalAngle`
the value `(old revolutionCount + 1)*360 + c` rounded to float; the stored value
is exactly `(old revolutionCount + 1)*360 + c` whenever that sum is a float, in
particular for every sensor angle `c` when the old count lies between -92 and
89. This is what `updateMultiRevolution` does on any bus whose angle read
gives `c`. -/
theorem forward_wrap (s : AS5600) (c : ℚ) (hlast : s._lastAngle > 270) (hc : c < 90)
    (hmin : INT_MIN ≤ s._revolutionCount) (hmax : s._revolutionCount < INT_MAX) :
    (updateAt s c)._revolutionCount = s._revolutionCount + 1 ∧
    (updateAt s c)._totalAngle = f32 (((s._revolutionCount + 1 : Int) : ℚ) * 360 + c) ∧
    (isF32 (((s._revolutionCount + 1 : Int) : ℚ) * 360 + c) →
      (updateAt s c)._totalAngle = ((s._revolutionCount + 1 : Int) : ℚ) * 360 + c) ∧
    (∀ raw : Nat, raw ≤ 4095 → c = rawToDegrees raw →
      -92 ≤ s._revolutionCount → s._revolutionCount ≤ 89 →
      (updateAt s c)._totalAngle = ((s._revolutionCount + 1 : Int) : ℚ) * 360 + c) ∧
    (updateAt s c)._lastAngle = c ∧
    (∀ w : Wire, readAngleDegrees w = c → updateMultiRevolution s w = updateAt s c) := by
  have hrc := updateAt_incr s c ⟨hlast, hc⟩ hmin hmax
  have htot : (updateAt s c)._totalAngle
      = f32 (((s._revolutionCount + 1 : Int) : ℚ) * 360 + c) := by
    rw [updateAt_totalAngle_rounded s c (by rw [hrc]; omega) (by rw [hrc]; omega), hrc]
  refine ⟨hrc, htot, ?_, ?_, rfl, ?_⟩
  · intro hrep
    rw [htot]
    exact hrep
  · intro raw hraw hraw_eq hlo hhi
    rw [htot, hraw_eq]
    exact isF32_total_of_sensor _ raw hraw (by omega) (by omega)
  · intro w hw
    simp [updateMultiRevolution, hw]

/-- Forward wrap scenario: after a reset on 350, updating with 350 and then 10
yields `revolutionCount = 1` and `totalAngle = 370`. -/
theorem forward_wrap_witness :
    (updateAt (resetAt (new AS5600_ADDRESS) 350) 350)._lastAngle > 270 ∧ (10 : ℚ) < 90 ∧
    (updateAt (updateAt (resetAt (new AS5600_ADDRESS) 350) 350) 10)._revolutionCount = 1 ∧
    (updateAt (updateAt (resetAt (new AS5600_ADDRESS) 350) 350) 10)._totalAngle = 370 := by
  have hlast : (updateAt (resetAt (new AS5600_ADDRESS) 350) 350)._lastAngle > 270 := by
    norm_num [updateAt]
  have hrc : (updateAt (resetAt (new AS5600_ADDRESS) 350) 350)._revolutionCount = 0 := by
    norm_num [updateAt, resetAt]
  have h := forward_wrap (updateAt (resetAt (new AS5600_ADDRESS) 350) 350) 10 hlast
    (by norm_num) (by rw [hrc]; decide) (by rw [hrc]; decide)
  have h370 : isF32 (((0 + 1 : Int) : ℚ) * 360 + 10) := by
    have := f32_intCast 370 (by norm_num)
    unfold isF32
    norm_num at this ⊢
    exact this
  refine ⟨hlast, by norm_num, ?_, ?_⟩
  · rw [h.1, hrc]; rfl
  · have ht := h.2.2.1
    rw [hrc] at ht
    rw [ht h370]
    norm_num

/-- C3 as stated fails on the stored total and at the top of the counter: from
count 99 with `lastAngle` at raw code 3982, the sample at raw code 1 stores
36000.0859375 where `(99 + 1)*360 + c` is 36000.087890625; from count `INT_MAX`
the new count is not `INT_MAX + 1`. -/
theorem forward_wrap_counterexample :
    (AS5600.mk AS5600_ADDRESS 99 (rawToDegrees 3982) 35989.98046875)._lastAngle > 270 ∧
    rawToDegrees 1 < 90 ∧
    (updateAt (AS5600.mk AS5600_ADDRESS 99 (rawToDegrees 3982) 35989.98046875)
      (rawToDegrees 1))._totalAngle = 36000.0859375 ∧
    ((99 + 1 : Int) : ℚ) * 360 + rawToDegrees 1 = 36000.087890625 ∧
    (updateAt (AS5600.mk AS5600_ADDRESS INT_MAX (rawToDegrees 3982) 11796470)
      (rawToDegrees 1))._revolutionCount = INT_MIN ∧
    INT_MIN ≠ INT_MAX + 1 := by
  have hcond : (AS5600.mk AS5600_ADDRESS 99 (rawToDegrees 3982) 35989.98046875)._lastAngle > 270
      ∧ rawToDegrees 1 < 90 := by
    norm_num [rawToDegrees]
  have hrc := updateAt_incr (AS5600.mk AS5600_ADDRESS 99 (rawToDegrees 3982) 35989.98046875)
    (rawToDegrees 1) hcond (by decide) (by decide)
  have hcond2 : (AS5600.mk AS5600_ADDRESS INT_MAX (rawToDegrees 3982)
      11796470)._lastAngle > 270 ∧ rawToDegrees 1 < 90 := by
    norm_num [rawToDegrees]
  refine ⟨hcond.1, hcond.2, ?_, by norm_num [rawToDegrees], ?_, by decide⟩
  · rw [updateAt_totalAngle_rounded _ _ (by rw [hrc]; decide) (by rw [hrc]; decide), hrc]
    have h := f32_total_100_1
    norm_num at h ⊢
    exact h
  · simp only [updateAt, if_pos hcond2]
    decide

end AS5600

namespace AS5600

/-- Stored total at count -93 and raw code 4095: the tie at -33120.087890625
falls to -33120.0859375. -/
theorem f32_total_neg93_4095 :
    f32 ((-93 : ℚ) * 360 + rawToDegrees 4095) = -33120.0859375 := by
  have h := f32_eval_tie_even_pos (33120.087890625 : ℚ) 15 8478742 (by norm_num)
    (by norm_num) (by norm_num) (by norm_num) (by decide)
  have e : (-93 : ℚ) * 360 + rawToDegrees 4095 = -33120.087890625 := by
    norm_num [rawToDegrees]
  rw [e, f32_neg, h]
  norm_num

/-- C4 (amended). Reverse wrap: from any state with `lastAngle < 90` whose count
is an `int` above `INT_MIN`, an update on a sample `c > 270` decreases
`revolutionCount` by exactly 1, sets `lastAngle = c`, and stores in `totalAngle`
the value `(old revolutionCount - 1)*360 + c` rounded to float; the stored value
is exactly `(old revolutionCount - 1)*360 + c` whenever that sum is a float, in
particular for every sensor angle `c` when the old count lies between -90 and
91. This is what `updateMultiRevolution` does on any bus whose angle read
gives `c`. -/
theorem reverse_wrap (s : AS5600) (c : ℚ) (hlast : s._lastAngle < 90) (hc : c > 270)
    (hmin : INT_MIN < s._revolutionCount) (hmax : s._revolutionCount ≤ INT_MAX) :
    (updateAt s c)._revolutionCount = s._revolutionCount - 1 ∧
    (updateAt s c)._totalAngle = f32 (((s._revolutionCount - 1 : Int) : ℚ) * 360 + c) ∧
    (isF32 (((s._revolutionCount - 1 : Int) : ℚ) * 360 + c) →
      (updateAt s c)._totalAngle = ((s._revolutionCount - 1 : Int) : ℚ) * 360 + c) ∧
    (∀ raw : Nat, raw ≤ 4095 → c = rawToDegrees raw →
      -90 ≤ s._revolutionCount → s._revolutionCount ≤ 91 →
      (updateAt s c)._totalAngle = ((s._revolutionCount - 1 : Int) : ℚ) * 360 + c) ∧
    (updateAt s c)._lastAngle = c ∧
    (∀ w : Wire, readAngleDegrees w = c → updateMultiRevolution s w = updateAt s c) := by
  have hrc := updateAt_decr s c ⟨hlast, hc⟩ hmin hmax
  have htot : (updateAt s c)._totalAngle
      = f32 (((s._revolutionCount - 1 : Int) : ℚ) * 360 + c) := by
    rw [updateAt_totalAngle_rounded s c (by rw [hrc]; omega) (by rw [hrc]; omega), hrc]
  refine ⟨hrc, htot, ?_, ?_, rfl, ?_⟩
  · intro hrep
    rw [htot]
    exact hrep
  · intro raw hraw hraw_eq hlo hhi
    rw [htot, hraw_eq]
    exact isF32_total_of_sensor _ raw hraw (by omega) (by omega)
  · intro w hw
    simp [updateMultiRevolution, hw]

/-- Reverse wrap scenario: after a reset on 10, updating with 10 and then 350
yields `revolutionCount = -1` and `totalAngle = -10`. -/
theorem reverse_wrap_witness :
    (updateAt (resetAt (new AS5600_ADDRESS) 10) 10)._lastAngle < 90 ∧ (350 : ℚ) > 270 ∧
    (updateAt (updateAt (resetAt (new AS5600_ADDRESS) 10) 10) 350)._revolutionCount = -1 ∧
    (updateAt (updateAt (resetAt (new AS5600_ADDRESS) 10) 10) 350)._totalAngle = -10 := by
  have hlast : (updateAt (resetAt (new AS5600_ADDRESS) 10) 10)._lastAngle < 90 := by
    norm_num [updateAt]
  have hrc : (updateAt (resetAt (new AS5600_ADDRESS) 10) 10)._revolutionCount = 0 := by
    norm_num [updateAt, resetAt]
  have h := reverse_wrap (updateAt (resetAt (new AS5600_ADDRESS) 10) 10) 350 hlast
    (by norm_num) (by rw [hrc]; decide) (by rw [hrc]; decide)
  have h10 : isF32 (((0 - 1 : Int) : ℚ) * 360 + 350) := by
    have := f32_intCast (-10) (by norm_num)
    unfold isF32
    norm_num at this ⊢
    exact this
  refine ⟨hlast, by norm_num, ?_, ?_⟩
  · rw [h.1, hrc]; rfl
  · have ht := h.2.2.1
    rw [hrc] at ht
    rw [ht h10]
    norm_num

/-- C4 as stated fails on the stored total and at the bottom of the counter: from
count -92 with `lastAngle` at raw code 0, the sample at raw code 4095 stores
-33120.0859375 where `(-92 - 1)*360 + c` is -33120.087890625; from count
`INT_MIN` the new count is not `INT_MIN - 1`. -/
theorem reverse_wrap_counterexample :
    (AS5600.mk AS5600_ADDRESS (-92) (rawToDegrees 0) (-33120))._lastAngle < 90 ∧
    rawToDegrees 4095 > 270 ∧
    (updateAt (AS5600.mk AS5600_ADDRESS (-92) (rawToDegrees 0) (-33120))
      (rawToDegrees 4095))._totalAngle = -33120.0859375 ∧
    ((-92 - 1 : Int) : ℚ) * 360 + rawToDegrees 4095 = -33120.087890625 ∧
    (updateAt (AS5600.mk AS5600_ADDRESS INT_MIN (rawToDegrees 0) (-11796480))
      (rawToDegrees 4095))._revolutionCount = INT_MAX ∧
    INT_MAX ≠ INT_MIN - 1 := by
  have hcond : (AS5600.mk AS5600_ADDRESS (-92) (rawToDegrees 0) (-33120))._lastAngle < 90
      ∧ rawToDegrees 4095 > 270 := by
    norm_num [rawToDegrees]
  have hrc := updateAt_decr (AS5600.mk AS5600_ADDRESS (-92) (rawToDegrees 0) (-33120))
    (rawToDegrees 4095) hcond (by decide) (by decide)
  have hcond2 : (AS5600.mk AS5600_ADDRESS INT_MIN (rawToDegrees 0) (-11796480))._lastAngle < 90
      ∧ rawToDegrees 4095 > 270 := by
    norm_num [rawToDegrees]
  have hnot2 : ¬ ((AS5600.mk AS5600_ADDRESS INT_MIN (rawToDegrees 0) (-11796480))._lastAngle
      > 270 ∧ rawToDegrees 4095 < 90) := by
    norm_num [rawToDegrees]
  refine ⟨hcond.1, hcond.2, ?_, by norm_num [rawToDegrees], ?_, by decide⟩
  · rw [updateAt_totalAngle_rounded _ _ (by rw [hrc]; decide) (by rw [hrc]; decide), hrc]
    have h := f32_total_neg93_4095
    norm_num at h ⊢
    exact h
  · simp only [updateAt, if_neg hnot2, if_pos hcond2]
    decide

/-- C15 (amended). A single wrap is never double-counted: from any state whose
count is an `int` strictly between `INT_MIN` and `INT_MAX`, one update changes
`revolutionCount` by -1, 0 or +1; and from any state, of two consecutive updates
on any two samples it is never the case that both increment (or both take the
forward branch), nor that both decrement (or both take the reverse branch); the
same holds for `updateMultiRevolution` on any two buses. -/
theorem no_double_count :
    (∀ (s : AS5600) (c : ℚ), INT_MIN < s._revolutionCount → s._revolutionCount < INT_MAX →
      (updateAt s c)._revolutionCount = s._revolutionCount - 1 ∨
      (updateAt s c)._revolutionCount = s._revolutionCount ∨
      (updateAt s c)._revolutionCount = s._revolutionCount + 1) ∧
    (∀ (s : AS5600) (c1 c2 : ℚ),
      ¬ ((updateAt s c1)._revolutionCount = s._revolutionCount + 1 ∧
         (updateAt (updateAt s c1) c2)._revolutionCount
           = (updateAt s c1)._revolutionCount + 1)) ∧
    (∀ (s : AS5600) (c1 c2 : ℚ),
      ¬ ((updateAt s c1)._revolutionCount = s._revolutionCount - 1 ∧
         (updateAt (updateAt s c1) c2)._revolutionCount
           = (updateAt s c1)._revolutionCount - 1)) ∧
    (∀ (s : AS5600) (c1 c2 : ℚ),
      ¬ ((s._lastAngle > 270 ∧ c1 < 90) ∧ ((updateAt s c1)._lastAngle > 270 ∧ c2 < 90)) ∧
      ¬ ((s._lastAngle < 90 ∧ c1 > 270) ∧ ((updateAt s c1)._lastAngle < 90 ∧ c2 > 270))) ∧
    (∀ (s : AS5600) (w1 w2 : Wire),
      ¬ ((updateMultiRevolution s w1)._revolutionCount = s._revolutionCount + 1 ∧
         (updateMultiRevolution (updateMultiRevolution s w1) w2)._revolutionCount
           = (updateMultiRevolution s w1)._revolutionCount + 1) ∧
      ¬ ((updateMultiRevolution s w1)._revolutionCount = s._revolutionCount - 1 ∧
         (updateMultiRevolution (updateMultiRevolution s w1) w2)._revolutionCount
           = (updateMultiRevolution s w1)._revolutionCount - 1)) := by
  have hbr : ∀ (s : AS5600) (c1 c2 : ℚ),
      ¬ ((s._lastAngle > 270 ∧ c1 < 90) ∧ ((updateAt s c1)._lastAngle > 270 ∧ c2 < 90)) ∧
      ¬ ((s._lastAngle < 90 ∧ c1 > 270) ∧ ((updateAt s c1)._lastAngle < 90 ∧ c2 > 270)) := by
    intro s c1 c2
    constructor
    · intro h
      have h2 := h.2.1
      rw [updateAt_lastAngle] at h2
      linarith [h.1.2]
    · intro h
      have h2 := h.2.1
      rw [updateAt_lastAngle] at h2
      linarith [h.1.2]
  have hinc : ∀ (s : AS5600) (c1 c2 : ℚ),
      ¬ ((updateAt s c1)._revolutionCount = s._revolutionCount + 1 ∧
         (updateAt (updateAt s c1) c2)._revolutionCount
           = (updateAt s c1)._revolutionCount + 1) := by
    intro s c1 c2 h
    exact (hbr s c1 c2).1 ⟨updateAt_incr_branch s c1 h.1,
      updateAt_incr_branch (updateAt s c1) c2 h.2⟩
  have hdec : ∀ (s : AS5600) (c1 c2 : ℚ),
      ¬ ((updateAt s c1)._revolutionCount = s._revolutionCount - 1 ∧
         (updateAt (updateAt s c1) c2)._revolutionCount
           = (updateAt s c1)._revolutionCount - 1) := by
    intro s c1 c2 h
    exact (hbr s c1 c2).2 ⟨updateAt_decr_branch s c1 h.1,
      updateAt_decr_branch (updateAt s c1) c2 h.2⟩
  refine ⟨?_, hinc, hdec, hbr, ?_⟩
  · intro s c hmin hmax
    rcases updateAt_cases s c with ⟨hb, _⟩ | ⟨hb, _⟩ | ⟨_, _, e⟩
    · exact Or.inr (Or.inr (updateAt_incr s c hb (le_of_lt hmin) hmax))
    · exact Or.inl (updateAt_decr s c hb hmin (le_of_lt hmax))
    · exact Or.inr (Or.inl e)
  · intro s w1 w2
    exact ⟨hinc s (readAngleDegrees w1) (readAngleDegrees w2),
      hdec s (readAngleDegrees w1) (readAngleDegrees w2)⟩

/-- Two updates after a forward wrap 350 -> 10 -> 5: the first increments, the
second does not. -/
theorem no_double_count_witness :
    ((updateAt (resetAt (new AS5600_ADDRESS) 350) 10)._revolutionCount
        = (resetAt (new AS5600_ADDRESS) 350)._revolutionCount - 1 ∨
      (updateAt (resetAt (new AS5600_ADDRESS) 350) 10)._revolutionCount
        = (resetAt (new AS5600_ADDRESS) 350)._revolutionCount ∨
      (updateAt (resetAt (new AS5600_ADDRESS) 350) 10)._revolutionCount
        = (resetAt (new AS5600_ADDRESS) 350)._revolutionCount + 1) ∧
    ¬ ((updateAt (resetAt (new AS5600_ADDRESS) 350) 10)._revolutionCount
          = (resetAt (new AS5600_ADDRESS) 350)._revolutionCount + 1 ∧
       (updateAt (updateAt (resetAt (new AS5600_ADDRESS) 350) 10) 5)._revolutionCount
          = (updateAt (resetAt (new AS5600_ADDRESS) 350) 10)._revolutionCount + 1) :=
  ⟨no_double_count.1 (resetAt (new AS5600_ADDRESS) 350) 10 (by decide) (by decide),
   no_double_count.2.1 (resetAt (new AS5600_ADDRESS) 350) 10 5⟩

/-- C15 as stated fails at the top of the counter: from count `INT_MAX` with
`lastAngle` at raw code 3982 the sample at raw code 1 takes the forward branch
and the new count is `INT_MIN`, which is none of `INT_MAX - 1`, `INT_MAX`,
`INT_MAX + 1`. -/
theorem no_double_count_counterexample :
    (updateAt (AS5600.mk AS5600_ADDRESS INT_MAX (rawToDegrees 3982) 11796470)
      (rawToDegrees 1))._revolutionCount = INT_MIN ∧
    INT_MIN ≠ INT_MAX - 1 ∧ INT_MIN ≠ INT_MAX ∧ INT_MIN ≠ INT_MAX + 1 := by
  have hcond : (AS5600.mk AS5600_ADDRESS INT_MAX (rawToDegrees 3982) 11796470)._lastAngle > 270
      ∧ rawToDegrees 1 < 90 := by
    norm_num [rawToDegrees]
  refine ⟨?_, by decide, by decide, by decide⟩
  simp only [updateAt, if_pos hcond]
  decide

end AS5600

-- ============================================
-- Multi-revolution tracker: hysteresis behaviour
-- ============================================

namespace AS5600

/-- Stored total at count 100 and raw code 2049: the tie at 36180.087890625
falls to 36180.0859375. -/
theorem f32_total_100_2049 : f32 ((100 : ℚ) * 360 + rawToDegrees 2049) = 36180.0859375 := by
  have h := f32_eval_tie_even_pos ((100 : ℚ) * 360 + rawToDegrees 2049) 15 9262102 (by norm_num)
    (by norm_num [rawToDegrees]) (by norm_num [rawToDegrees]) (by norm_num [rawToDegrees])
    (by decide)
  rw [h]
  norm_num

/-- Going to a sample and back to the previous one restores the count. -/
theorem updateAt_back_count (s : AS5600) (b : ℚ) (hmin : INT_MIN < s._revolutionCount)
    (hmax : s._revolutionCount < INT_MAX) :
    (updateAt (updateAt s b) s._lastAngle)._revolutionCount = s._revolutionCount := by
  rcases updateAt_cases s b with ⟨h, _⟩ | ⟨h, _⟩ | ⟨h1, h2, e⟩
  · have e1 := updateAt_incr s b h (le_of_lt hmin) hmax
    have hback : (updateAt s b)._lastAngle < 90 ∧ s._lastAngle > 270 := by
      rw [updateAt_lastAngle]; exact ⟨h.2, h.1⟩
    rw [updateAt_decr (updateAt s b) s._lastAngle hback (by rw [e1]; omega) (by rw [e1]; omega),
      e1]
    omega
  · have e1 := updateAt_decr s b h hmin (le_of_lt hmax)
    have hback : (updateAt s b)._lastAngle > 270 ∧ s._lastAngle < 90 := by
      rw [updateAt_lastAngle]; exact ⟨h.2, h.1⟩
    rw [updateAt_incr (updateAt s b) s._lastAngle hback (by rw [e1]; omega) (by rw [e1]; omega),
      e1]
    omega
  · rcases updateAt_cases (updateAt s b) s._lastAngle with ⟨h, _⟩ | ⟨h, _⟩ | ⟨_, _, e2⟩
    · rw [updateAt_lastAngle] at h
      exact absurd ⟨h.2, h.1⟩ h2
    · rw [updateAt_lastAngle] at h
      exact absurd ⟨h.2, h.1⟩ h1
    · rw [e2, e]

/-- C16 (amended). Jitter across the boundary is net-neutral on the counter: from
a state whose count is an `int` strictly between `INT_MIN` and `INT_MAX` and
whose `lastAngle` is `a`, an update on any sample `b` followed by an update on
`a` again leaves `revolutionCount` at its value before the two updates, with
`lastAngle = a` and `totalAngle` equal to `revolutionCount*360 + a` rounded to
float; the stored total is exactly `revolutionCount*360 + a` whenever that sum
is a float, in particular when `a` is a sensor angle and the count lies between
-91 and 90. -/
theorem jitter_net_neutral (s : AS5600) (b : ℚ) (hmin : INT_MIN < s._revolutionCount)
    (hmax : s._revolutionCount < INT_MAX) :
    (updateAt (updateAt s b) s._lastAngle)._revolutionCount = s._revolutionCount ∧
    (updateAt (updateAt s b) s._lastAngle)._totalAngle
      = f32 ((s._revolutionCount : ℚ) * 360 + s._lastAngle) ∧
    (isF32 ((s._revolutionCount : ℚ) * 360 + s._lastAngle) →
      (updateAt (updateAt s b) s._lastAngle)._totalAngle
        = (s._revolutionCount : ℚ) * 360 + s._lastAngle) ∧
    (∀ raw : Nat, raw ≤ 4095 → s._lastAngle = rawToDegrees raw →
      -91 ≤ s._revolutionCount → s._revolutionCount ≤ 90 →
      (updateAt (updateAt s b) s._lastAngle)._totalAngle
        = (s._revolutionCount : ℚ) * 360 + s._lastAngle) ∧
    (updateAt (updateAt s b) s._lastAngle)._lastAngle = s._lastAngle := by
  have hrc := updateAt_back_count s b hmin hmax
  have htot : (updateAt (updateAt s b) s._lastAngle)._totalAngle
      = f32 ((s._revolutionCount : ℚ) * 360 + s._lastAngle) := by
    rw [updateAt_totalAngle_rounded _ _ (by rw [hrc]; exact le_of_lt hmin)
      (by rw [hrc]; exact le_of_lt hmax), hrc]
  refine ⟨hrc, htot, ?_, ?_, rfl⟩
  · intro hrep
    rw [htot]
    exact hrep
  · intro raw hraw hraw_eq hlo hhi
    rw [htot, hraw_eq]
    exact isF32_total_of_sensor _ raw hraw hlo hhi

/-- Jitter 359 -> 1 -> 359 from count 4: the count is 4 again and the total
angle is 4*360 + 359 = 1799. -/
theorem jitter_net_neutral_witness :
    (updateAt (updateAt (AS5600.mk AS5600_ADDRESS 4 359 1799) 1) 359)._revolutionCount = 4 ∧
    (updateAt (updateAt (AS5600.mk AS5600_ADDRESS 4 359 1799) 1) 359)._totalAngle = 1799 := by
  have h := jitter_net_neutral (AS5600.mk AS5600_ADDRESS 4 359 1799) 1 (by decide) (by decide)
  have hrep : isF32 (((4 : Int) : ℚ) * 360 + 359) := by
    have := f32_intCast 1799 (by norm_num)
    unfold isF32
    norm_num at this ⊢
    exact this
  refine ⟨h.1, ?_⟩
  rw [h.2.2.1 hrep]
  norm_num

/-- C16 as stated fails on the stored total: from count 100 with `lastAngle` at
raw code 2049, an update on raw code 0 and back leaves the count at 100 but
stores 36180.0859375 where `revolutionCount*360 + a` is 36180.087890625. -/
theorem jitter_net_neutral_counterexample :
    (updateAt (updateAt (AS5600.mk AS5600_ADDRESS 100 (rawToDegrees 2049) 36180.0859375)
      (rawToDegrees 0)) (rawToDegrees 2049))._revolutionCount = 100 ∧
    (updateAt (updateAt (AS5600.mk AS5600_ADDRESS 100 (rawToDegrees 2049) 36180.0859375)
      (rawToDegrees 0)) (rawToDegrees 2049))._totalAngle = 36180.0859375 ∧
    ((100 : Int) : ℚ) * 360 + rawToDegrees 2049 = 36180.087890625 := by
  have hrc := updateAt_back_count
    (AS5600.mk AS5600_ADDRESS 100 (rawToDegrees 2049) 36180.0859375) (rawToDegrees 0)
    (by decide) (by decide)
  refine ⟨hrc, ?_, by norm_num [rawToDegrees]⟩
  have hrc' : (updateAt (updateAt (AS5600.mk AS5600_ADDRESS 100 (rawToDegrees 2049)
      36180.0859375) (rawToDegrees 0)) (rawToDegrees 2049))._revolutionCount = 100 := hrc
  rw [updateAt_totalAngle_rounded _ _ (by rw [hrc']; decide) (by rw [hrc']; decide), hrc']
  have h := f32_total_100_2049
  norm_num at h ⊢
  exact h

end AS5600

-- ============================================
-- Multi-revolution tracker: long runs
-- ============================================

namespace AS5600

theorem updateAll_nil (s : AS5600) : updateAll s [] = s := rfl

theorem updateAll_cons (s : AS5600) (c : ℚ) (rest : List ℚ) :
    updateAll s (c :: rest) = updateAll (updateAt s c) rest := rfl

theorem updateAll_append (s : AS5600) (l1 l2 : List ℚ) :
    updateAll s (l1 ++ l2) = updateAll (updateAll s l1) l2 := by
  simp only [updateAll, List.foldl_append]

theorem runCalls_map_update (l : List ℚ) :
    ∀ s : AS5600, runCalls s (l.map TrackerCall.update) = updateAll s l := by
  induction l with
  | nil => intro s; rfl
  | cons c rest ih =>
    intro s
    simp only [List.map_cons, runCalls, List.foldl_cons, applyCall]
    exact ih (updateAt s c)

/-- One forward turn sampled at raw codes 2048, 3584 and 1 adds one to the
count. -/
theorem forward_turn_count (s : AS5600) (hmin : INT_MIN ≤ s._revolutionCount)
    (hmax : s._revolutionCount < INT_MAX) :
    (updateAt (updateAt (updateAt s (rawToDegrees 2048)) (rawToDegrees 3584))
      (rawToDegrees 1))._revolutionCount = s._revolutionCount + 1 := by
  have h1 : (updateAt s (rawToDegrees 2048))._revolutionCount = s._revolutionCount :=
    updateAt_count_band s _ (by norm_num [rawToDegrees]) (by norm_num [rawToDegrees])
  have h2 : (updateAt (updateAt s (rawToDegrees 2048)) (rawToDegrees 3584))._revolutionCount
      = s._revolutionCount := by
    rcases updateAt_cases (updateAt s (rawToDegrees 2048)) (rawToDegrees 3584) with
      ⟨h, _⟩ | ⟨h, _⟩ | ⟨_, _, e⟩
    · rw [updateAt_lastAngle] at h
      norm_num [rawToDegrees] at h
    · rw [updateAt_lastAngle] at h
      norm_num [rawToDegrees] at h
    · rw [e, h1]
  have h3 := updateAt_incr (updateAt (updateAt s (rawToDegrees 2048)) (rawToDegrees 3584))
    (rawToDegrees 1) (by rw [updateAt_lastAngle]; norm_num [rawToDegrees])
    (by rw [h2]; exact hmin) (by rw [h2]; exact hmax)
  rw [h3, h2]

theorem updateAll_forwardTurns (n : Nat) :
    ∀ s : AS5600, INT_MIN ≤ s._revolutionCount → s._revolutionCount + n ≤ INT_MAX →
      (updateAll s (forwardTurns n))._revolutionCount = s._revolutionCount + n := by
  induction n with
  | zero => intro s _ _; simp [forwardTurns, updateAll_nil]
  | succ n ih =>
    intro s hmin hmax
    have hstep := forward_turn_count s hmin (by push_cast at hmax; omega)
    simp only [forwardTurns, updateAll_cons]
    rw [ih _ (by rw [hstep]; omega) (by rw [hstep]; push_cast at hmax ⊢; omega), hstep]
    push_cast
    ring

/-- Stored total at count 91 and raw code 2049: the tie at 32940.087890625 falls
to 32940.0859375. -/
theorem f32_total_91_2049 : f32 ((91 : ℚ) * 360 + rawToDegrees 2049) = 32940.0859375 := by
  have h := f32_eval_tie_even_pos ((91 : ℚ) * 360 + rawToDegrees 2049) 15 8432662 (by norm_num)
    (by norm_num [rawToDegrees]) (by norm_num [rawToDegrees]) (by norm_num [rawToDegrees])
    (by decide)
  rw [h]
  norm_num

theorem runCalls_cons (s : AS5600) (call : TrackerCall) (rest : List TrackerCall) :
    runCalls s (call :: rest) = runCalls (applyCall s call) rest := rfl

theorem runCalls_longRunCalls (s : AS5600) :
    runCalls s longRunCalls
      = updateAt (updateAll (resetAt s (rawToDegrees 0)) (forwardTurns 91))
          (rawToDegrees 2049) := by
  unfold longRunCalls
  rw [runCalls_cons, runCalls_map_update, updateAll_append, updateAll_cons, updateAll_nil]
  rfl

/-- C1 as stated fails in a state reached from the constructor: after a reset at
raw code 0, 91 forward turns and an update at raw code 2049 (all sensor angles),
the count is 91, `lastAngle` is 180.087890625 and the stored `totalAngle` is
32940.0859375, while `revolutionCount*360 + lastAngle` is 32940.087890625. -/
theorem tracker_invariant_counterexample :
    (∀ call ∈ longRunCalls, ∃ raw : Nat, raw ≤ 4095 ∧ call.angle = rawToDegrees raw) ∧
    (runCalls (new AS5600_ADDRESS) longRunCalls)._revolutionCount = 91 ∧
    (runCalls (new AS5600_ADDRESS) longRunCalls)._lastAngle = 180.087890625 ∧
    (runCalls (new AS5600_ADDRESS) longRunCalls)._totalAngle = 32940.0859375 ∧
    ((91 : Int) : ℚ) * 360 + 180.087890625 = (32940.087890625 : ℚ) ∧
    ¬ TrackerInvariant (runCalls (new AS5600_ADDRESS) longRunCalls) := by
  have hsensor : ∀ n : Nat, ∀ c ∈ forwardTurns n, ∃ raw : Nat, raw ≤ 4095 ∧ c = rawToDegrees raw := by
    intro n
    induction n with
    | zero => intro c hc; simp [forwardTurns] at hc
    | succ n ih =>
      intro c hc
      simp only [forwardTurns, List.mem_cons] at hc
      rcases hc with rfl | rfl | rfl | hc
      · exact ⟨2048, by decide, rfl⟩
      · exact ⟨3584, by decide, rfl⟩
      · exact ⟨1, by decide, rfl⟩
      · exact ih c hc
  have hinner : (updateAll (resetAt (new AS5600_ADDRESS) (rawToDegrees 0))
      (forwardTurns 91))._revolutionCount = 91 := by
    have := updateAll_forwardTurns 91 (resetAt (new AS5600_ADDRESS) (rawToDegrees 0))
      (by decide) (by decide)
    rw [this]
    rfl
  have hrc : (runCalls (new AS5600_ADDRESS) longRunCalls)._revolutionCount = 91 := by
    rw [runCalls_longRunCalls, updateAt_count_band _ _ (by norm_num [rawToDegrees])
      (by norm_num [rawToDegrees]), hinner]
  have hlast : (runCalls (new AS5600_ADDRESS) longRunCalls)._lastAngle = 180.087890625 := by
    rw [runCalls_longRunCalls, updateAt_lastAngle]
    norm_num [rawToDegrees]
  have htot : (runCalls (new AS5600_ADDRESS) longRunCalls)._totalAngle = 32940.0859375 := by
    have hrc' := hrc
    rw [runCalls_longRunCalls] at hrc' ⊢
    rw [updateAt_totalAngle_rounded _ _ (by rw [hrc']; decide) (by rw [hrc']; decide), hrc']
    have h := f32_total_91_2049
    norm_num at h ⊢
    exact h
  refine ⟨?_, hrc, hlast, htot, by norm_num, ?_⟩
  · intro call hcall
    unfold longRunCalls at hcall
    simp only [List.mem_cons, List.mem_map, List.mem_append, List.not_mem_nil, or_false]
      at hcall
    rcases hcall with rfl | ⟨c, hc | rfl, rfl⟩
    · exact ⟨0, by decide, rfl⟩
    · exact hsensor 91 c hc
    · exact ⟨2049, by decide, rfl⟩
  · unfold TrackerInvariant
    rw [hrc, hlast, htot]
    norm_num

end AS5600

-- ============================================
-- Multi-revolution tracker: following a continuous angle
-- ============================================

namespace AS5600

theorem wrap360_nonneg (theta : ℚ) : 0 ≤ wrap360 theta := by
  have h := Int.floor_le (theta / 360)
  have h2 : (⌊theta / 360⌋ : ℚ) * 360 ≤ theta := by
    rwa [le_div_iff₀ (by norm_num : (0 : ℚ) < 360)] at h
  unfold wrap360
  linarith

theorem wrap360_lt (theta : ℚ) : wrap360 theta < 360 := by
  have h := Int.lt_floor_add_one (theta / 360)
  have h2 : theta < ((⌊theta / 360⌋ : ℚ) + 1) * 360 := by
    rwa [div_lt_iff₀ (by norm_num : (0 : ℚ) < 360)] at h
  unfold wrap360
  linarith

theorem wrap360_add_turns (theta : ℚ) : wrap360 theta + 360 * (turns theta : ℚ) = theta := by
  unfold wrap360 turns
  ring

theorem floor_div_360_of_lt {theta : ℚ} (k : Int) (hlo : 360 * (k : ℚ) ≤ theta)
    (hhi : theta < 360 * (k : ℚ) + 360) : turns theta = k := by
  unfold turns
  rw [Int.floor_eq_iff]
  constructor
  · rw [le_div_iff₀ (by norm_num : (0 : ℚ) < 360)]; linarith
  · rw [div_lt_iff₀ (by norm_num : (0 : ℚ) < 360)]; linarith

theorem wrap360_of_turns {theta : ℚ} (k : Int) (hlo : 360 * (k : ℚ) ≤ theta)
    (hhi : theta < 360 * (k : ℚ) + 360) : wrap360 theta = theta - 360 * (k : ℚ) := by
  have h := wrap360_add_turns theta
  rw [floor_div_360_of_lt k hlo hhi] at h
  linarith

/-- A step of less than a quarter turn crosses at most one turn boundary, and the
two samples then lie on the two sides the thresholds test. -/
theorem turns_step (a b : ℚ) (hd : |b - a| < 90) :
    (turns b - turns a = -1 ∧ wrap360 a < 90 ∧ wrap360 b > 270) ∨
    (turns b - turns a = 0 ∧ ¬ (wrap360 a > 270 ∧ wrap360 b < 90) ∧
      ¬ (wrap360 a < 90 ∧ wrap360 b > 270)) ∨
    (turns b - turns a = 1 ∧ wrap360 a > 270 ∧ wrap360 b < 90) := by
  have ha0 := wrap360_nonneg a
  have ha1 := wrap360_lt a
  have hb0 := wrap360_nonneg b
  have hb1 := wrap360_lt b
  have hea := wrap360_add_turns a
  have heb := wrap360_add_turns b
  obtain ⟨hd1, hd2⟩ := abs_lt.mp hd
  have hcast : ((turns b - turns a : Int) : ℚ) = (turns b : ℚ) - (turns a : ℚ) := by
    push_cast; ring
  have hlo : ((-2 : Int) : ℚ) < ((turns b - turns a : Int) : ℚ) := by
    rw [hcast]; push_cast; linarith
  have hhi : ((turns b - turns a : Int) : ℚ) < ((2 : Int) : ℚ) := by
    rw [hcast]; push_cast; linarith
  have hlo' : -2 < turns b - turns a := Int.cast_lt.mp hlo
  have hhi' : turns b - turns a < 2 := Int.cast_lt.mp hhi
  have hcases : turns b - turns a = -1 ∨ turns b - turns a = 0 ∨ turns b - turns a = 1 := by
    omega
  rcases hcases with h | h | h
  · have hq : (turns b : ℚ) - (turns a : ℚ) = -1 := by rw [← hcast, h]; norm_num
    exact Or.inl ⟨h, by linarith, by linarith⟩
  · have hq : (turns b : ℚ) - (turns a : ℚ) = 0 := by rw [← hcast, h]; norm_num
    refine Or.inr (Or.inl ⟨h, ?_, ?_⟩)
    · intro hc; linarith [hc.1, hc.2]
    · intro hc; linarith [hc.1, hc.2]
  · have hq : (turns b : ℚ) - (turns a : ℚ) = 1 := by rw [← hcast, h]; norm_num
    exact Or.inr (Or.inr ⟨h, by linarith, by linarith⟩)

/-- One update follows the shaft across at most one boundary when the shaft moved
by less than a quarter turn since the previous sample and the counter has room
to move. -/
theorem updateAt_tracks (s : AS5600) (a b : ℚ) (hs : s._lastAngle = wrap360 a)
    (hd : |b - a| < 90) (hmin : INT_MIN < s._revolutionCount)
    (hmax : s._revolutionCount < INT_MAX) :
    (updateAt s (wrap360 b))._revolutionCount = s._revolutionCount + (turns b - turns a) ∧
    -1 ≤ turns b - turns a ∧ turns b - turns a ≤ 1 := by
  rcases turns_step a b hd with ⟨h, h1, h2⟩ | ⟨h, h1, h2⟩ | ⟨h, h1, h2⟩
  · rw [updateAt_decr s _ (by rw [hs]; exact ⟨h1, h2⟩) hmin (le_of_lt hmax), h]
    exact ⟨by ring, by norm_num, by norm_num⟩
  · have hn1 : ¬ (s._lastAngle > 270 ∧ wrap360 b < 90) := by rw [hs]; exact h1
    have hn2 : ¬ (s._lastAngle < 90 ∧ wrap360 b > 270) := by rw [hs]; exact h2
    have e : (updateAt s (wrap360 b))._revolutionCount = s._revolutionCount := by
      simp only [updateAt, if_neg hn1, if_neg hn2]
    rw [e, h]
    exact ⟨by ring, by norm_num, by norm_num⟩
  · rw [updateAt_incr s _ (by rw [hs]; exact ⟨h1, h2⟩) (le_of_lt hmin) hmax, h]
    exact ⟨rfl, by norm_num, by norm_num⟩

/-- The counter follows the number of completed turns along a whole sequence of
samples in which consecutive shaft angles differ by less than a quarter turn,
as long as the counter has room for one step per sample. -/
theorem updateAll_tracks (rest : List ℚ) :
    ∀ (s : AS5600) (a : ℚ), s._lastAngle = wrap360 a →
      List.Chain (fun x y : ℚ => |y - x| < 90) a rest →
      INT_MIN + (rest.length : Int) ≤ s._revolutionCount →
      s._revolutionCount + (rest.length : Int) ≤ INT_MAX →
      (updateAll s (rest.map wrap360))._revolutionCount
          = s._revolutionCount + (turns (rest.getLastD a) - turns a) ∧
      (updateAll s (rest.map wrap360))._lastAngle = wrap360 (rest.getLastD a) ∧
      (rest = [] ∨ (updateAll s (rest.map wrap360))._totalAngle
          = f32 (((updateAll s (rest.map wrap360))._revolutionCount : ℚ) * 360
              + (updateAll s (rest.map wrap360))._lastAngle)) := by
  induction rest with
  | nil =>
    intro s a hs _ _ _
    simp [updateAll, hs]
  | cons b tail ih =>
    intro s a hs hchain hlo hhi
    rw [List.chain_cons] at hchain
    obtain ⟨hab, htail⟩ := hchain
    simp only [List.length_cons, Nat.cast_add, Nat.cast_one] at hlo hhi
    have hlen : (0 : Int) ≤ (tail.length : Int) := Int.natCast_nonneg _
    obtain ⟨hstep, hd1, hd2⟩ := updateAt_tracks s a b hs hab (by omega) (by omega)
    obtain ⟨hrc, hlast, htot⟩ :=
      ih (updateAt s (wrap360 b)) b (updateAt_lastAngle s (wrap360 b)) htail
        (by rw [hstep]; omega) (by rw [hstep]; omega)
    simp only [List.map_cons, updateAll_cons, List.getLastD_cons] at hrc hlast htot ⊢
    refine ⟨?_, hlast, Or.inr ?_⟩
    · rw [hrc, hstep]
      ring
    · rcases htot with htl | htl
      · subst htl
        simp only [List.map_nil, updateAll_nil]
        exact updateAt_totalAngle_rounded s _ (by rw [hstep]; unfold INT_MIN at *; omega)
          (by rw [hstep]; unfold INT_MAX at *; omega)
      · exact htl

end AS5600

namespace AS5600

theorem trackShaft_zero (s : AS5600) (theta : Nat → ℚ) :
    trackShaft s theta 0 = resetAt s (wrap360 (theta 0)) := rfl

theorem trackShaft_succ (s : AS5600) (theta : Nat → ℚ) (n : Nat) :
    trackShaft s theta (n + 1) = updateAt (trackShaft s theta n) (wrap360 (theta (n + 1))) := by
  simp only [trackShaft, updateAll, List.range_succ, List.map_append, List.map_cons,
    List.map_nil, List.foldl_append, List.foldl_cons, List.foldl_nil]

/-- Along a trajectory of at most 32767 steps, all below a quarter turn, the
tracker state after `n` updates is determined by `theta n` and `theta 0`. -/
theorem trackShaft_tracks (s : AS5600) (theta : Nat → ℚ) (n : Nat)
    (hstep : ∀ i : Nat, i < n → |theta (i + 1) - theta i| < 90) (hn : n ≤ 32767) :
    (trackShaft s theta n)._revolutionCount = turns (theta n) - turns (theta 0) ∧
    (trackShaft s theta n)._lastAngle = wrap360 (theta n) ∧
    (-(n : Int) ≤ (trackShaft s theta n)._revolutionCount ∧
      (trackShaft s theta n)._revolutionCount ≤ (n : Int)) ∧
    (n = 0 ∨ (trackShaft s theta n)._totalAngle
        = f32 (((trackShaft s theta n)._revolutionCount : ℚ) * 360
            + (trackShaft s theta n)._lastAngle)) := by
  induction n with
  | zero =>
    rw [trackShaft_zero]
    exact ⟨by simp [resetAt], rfl, by simp [resetAt], Or.inl rfl⟩
  | succ n ih =>
    obtain ⟨hrc, hlast, ⟨hlo, hhi⟩, _⟩ :=
      ih (fun i hi => hstep i (Nat.lt_succ_of_lt hi)) (by omega)
    have hn' : (n : Int) + 1 ≤ 32767 := by exact_mod_cast hn
    obtain ⟨hnext, hd1, hd2⟩ := updateAt_tracks (trackShaft s theta n) (theta n) (theta (n + 1))
      hlast (hstep n (Nat.lt_succ_self n)) (by unfold INT_MIN; omega) (by unfold INT_MAX; omega)
    rw [trackShaft_succ]
    refine ⟨?_, rfl, ⟨?_, ?_⟩, Or.inr ?_⟩
    · rw [hnext, hrc]
      ring
    · rw [hnext]; push_cast; omega
    · rw [hnext]; push_cast; omega
    · exact updateAt_totalAngle_rounded _ _ (by rw [hnext]; unfold INT_MIN; omega)
        (by rw [hnext]; unfold INT_MAX; omega)

/-- Stored total for the shaft angle 32802.099609375: the tie rises to
32802.1015625. -/
theorem f32_total_steady : f32 (32802.099609375 : ℚ) = 32802.1015625 := by
  have h := f32_eval_tie_odd_pos (32802.099609375 : ℚ) 15 8397337 (by norm_num)
    (by norm_num) (by norm_num) (by norm_num) (by decide)
  rw [h]
  norm_num

end AS5600

-- ============================================
-- Angle codec
-- ============================================

namespace AS5600

/-- C6. `rawToDegrees` is the linear scale `raw*360/4096`: on `[0, 4095]` its
value lies in `[0, 360)`, it is 0 at 0 and 359.912109375 at 4095 (within 0.001
of 359.912), and it is non-decreasing. -/
theorem rawToDegrees_linear_scale :
    (∀ raw : Nat, rawToDegrees raw = (raw : ℚ) * 360 / 4096) ∧
    (∀ raw : Nat, raw ≤ 4095 → 0 ≤ rawToDegrees raw ∧ rawToDegrees raw < 360) ∧
    rawToDegrees 0 = 0 ∧
    rawToDegrees 4095 = 359.912109375 ∧
    |rawToDegrees 4095 - 359.912| < 0.001 ∧
    (∀ raw1 raw2 : Nat, raw1 ≤ raw2 → raw2 ≤ 4095 →
      rawToDegrees raw1 ≤ rawToDegrees raw2) := by
  refine ⟨?_, ?_, ?_, ?_, ?_, ?_⟩
  · intro raw
    rfl
  · intro raw hraw
    have h : (raw : ℚ) ≤ 4095 := by exact_mod_cast hraw
    have h0 : (0 : ℚ) ≤ (raw : ℚ) := Nat.cast_nonneg raw
    unfold rawToDegrees
    constructor
    · positivity
    · rw [div_lt_iff₀ (by norm_num : (0 : ℚ) < 4096)]
      linarith
  · norm_num [rawToDegrees]
  · norm_num [rawToDegrees]
  · norm_num [rawToDegrees, abs_lt]
  · intro raw1 raw2 h12 _
    have h : (raw1 : ℚ) ≤ (raw2 : ℚ) := by exact_mod_cast h12
    unfold rawToDegrees
    apply div_le_div_of_nonneg_right _ (by norm_num : (0 : ℚ) ≤ 4096)
    linarith

/-- The scale at mid range: raw 2048 gives 180, inside `[0, 360)`, and raw codes
1024 ≤ 2048 are mapped in order. -/
theorem rawToDegrees_linear_scale_witness :
    (0 ≤ rawToDegrees 2048 ∧ rawToDegrees 2048 < 360) ∧
    rawToDegrees 1024 ≤ rawToDegrees 2048 ∧ rawToDegrees 2048 = 180 :=
  ⟨rawToDegrees_linear_scale.2.1 2048 (by decide),
   rawToDegrees_linear_scale.2.2.2.2.2 1024 2048 (by decide) (by decide),
   by norm_num [rawToDegrees]⟩

/-- C13. Documented resolution: for every raw code in `[0, 4094]` one step of the
raw code is `360/4096 = 0.087890625` degrees, which `errorInArcSeconds` converts
to `316.40625` arc-seconds, that is `5.2734375` arc-minutes; the header's
figures 0.0879 degrees, 5.27 arc-minutes and 316.4 arc-seconds are these values
rounded to the printed digits. -/
theorem documented_resolution :
    (∀ raw : Nat, raw ≤ 4094 →
      rawToDegrees (raw + 1) - rawToDegrees raw = 360 / 4096 ∧
      rawToDegrees (raw + 1) - rawToDegrees raw = 0.087890625 ∧
      errorInArcSeconds (rawToDegrees (raw + 1) - rawToDegrees raw) = 316.40625 ∧
      errorInArcSeconds (rawToDegrees (raw + 1) - rawToDegrees raw) / 60 = 5.2734375) ∧
    |(0.087890625 : ℚ) - headerPrecisionDegrees| < 0.00005 ∧
    |(5.2734375 : ℚ) - headerPrecisionArcMinutes| < 0.005 ∧
    |(316.40625 : ℚ) - headerPrecisionArcSeconds| < 0.05 := by
  have hstep : ∀ raw : Nat, rawToDegrees (raw + 1) - rawToDegrees raw = 360 / 4096 := by
    intro raw
    unfold rawToDegrees
    push_cast
    ring
  have herr : errorInArcSeconds ((360 : ℚ) / 4096) = 316.40625 := by
    have h := f32_div_two_pow 10125 5 (by norm_num) (by norm_num)
    unfold errorInArcSeconds
    norm_num at h ⊢
    exact h
  refine ⟨?_, ?_, ?_, ?_⟩
  · intro raw _
    rw [hstep raw]
    refine ⟨rfl, ?_, ?_, ?_⟩
    · norm_num
    · exact herr
    · rw [herr]; norm_num
  · norm_num [headerPrecisionDegrees, abs_lt]
  · norm_num [headerPrecisionArcMinutes, abs_lt]
  · norm_num [headerPrecisionArcSeconds, abs_lt]

/-- The step at the top of the range, from raw 4094 to raw 4095. -/
theorem documented_resolution_witness :
    rawToDegrees 4095 - rawToDegrees 4094 = 0.087890625 ∧
    errorInArcSeconds (rawToDegrees 4095 - rawToDegrees 4094) = 316.40625 :=
  ⟨(documented_resolution.1 4094 (by decide)).2.1,
   (documented_resolution.1 4094 (by decide)).2.2.1⟩

/-- The float nearest to 0.1, written `0.1f` in C++. -/
theorem isF32_tenth : isF32 ((13421773 : ℚ) / 134217728) := by
  have h := f32_div_two_pow 13421773 27 (by norm_num) (by norm_num)
  unfold isF32
  norm_num at h ⊢
  exact h

theorem f32_tenth_arcsec : f32 ((13421773 : ℚ) / 134217728 * 3600) = 360 := by
  have h := f32_eval_down_pos ((13421773 : ℚ) / 134217728 * 3600) 8 11796480 (by norm_num)
    (by norm_num) (by norm_num) (by norm_num) (by norm_num)
  rw [h]
  norm_num

/-- C14 (amended). `errorInArcSeconds` is multiplication by 3600 rounded to
float: for every argument (negative ones included) whose product
`errorDegrees*3600` is at most `2^127` in magnitude, the result is that product
rounded to the nearest float; it equals `errorDegrees*3600` exactly whenever the
product is a float; when the product is at least `2^-126` in magnitude the
result differs from it by at most `2^-24` of its magnitude; the result changes
sign with the argument; and it maps 1 to 3600 and 0 to 0. -/
theorem errorInArcSeconds_scale :
    (∀ errorDegrees : ℚ, |errorDegrees * 3600| ≤ 2 ^ 127 →
      errorInArcSeconds errorDegrees = f32 (errorDegrees * 3600)) ∧
    (∀ errorDegrees : ℚ, |errorDegrees * 3600| ≤ 2 ^ 127 → isF32 (errorDegrees * 3600) →
      errorInArcSeconds errorDegrees = errorDegrees * 3600) ∧
    (∀ errorDegrees : ℚ, (2 : ℚ) ^ (-126 : Int) ≤ |errorDegrees * 3600| →
      |errorDegrees * 3600| ≤ 2 ^ 127 →
      |errorInArcSeconds errorDegrees - errorDegrees * 3600|
        ≤ |errorDegrees * 3600| / 2 ^ 24) ∧
    (∀ errorDegrees : ℚ, |errorDegrees * 3600| ≤ 2 ^ 127 →
      errorInArcSeconds (-errorDegrees) = -errorInArcSeconds errorDegrees) ∧
    errorInArcSeconds 1 = 3600 ∧
    errorInArcSeconds 0 = 0 := by
  refine ⟨fun _ _ => rfl, fun _ _ h => h, ?_, ?_, ?_, ?_⟩
  · intro errorDegrees hlo _
    exact f32_rel_err _ hlo
  · intro errorDegrees _
    unfold errorInArcSeconds
    rw [neg_mul, f32_neg]
  · have h := f32_intCast 3600 (by norm_num)
    unfold errorInArcSeconds
    norm_num at h ⊢
    exact h
  · unfold errorInArcSeconds
    rw [zero_mul]
    exact f32_zero

/-- A negative error of half a degree is -1800 arc-seconds, and the conversion of
one raw step, 0.087890625 degrees, is exact. -/
theorem errorInArcSeconds_scale_witness :
    errorInArcSeconds (-1 / 2) = -1800 ∧ errorInArcSeconds 0.087890625 = 316.40625 := by
  have h1800 : isF32 ((-1 / 2 : ℚ) * 3600) := by
    have h := f32_intCast (-1800) (by norm_num)
    unfold isF32
    norm_num at h ⊢
    exact h
  have h316 : isF32 ((0.087890625 : ℚ) * 3600) := by
    have h := f32_div_two_pow 10125 5 (by norm_num) (by norm_num)
    unfold isF32
    norm_num at h ⊢
    exact h
  constructor
  · rw [errorInArcSeconds_scale.2.1 _ (by norm_num [abs_le]) h1800]; norm_num
  · rw [errorInArcSeconds_scale.2.1 _ (by norm_num [abs_le]) h316]; norm_num

/-- C14 as stated fails on the float nearest to 0.1: `errorInArcSeconds(0.1f)` is
360, while `0.1f * 3600` is 360.0000053644180297851562. -/
theorem errorInArcSeconds_counterexample :
    isF32 ((13421773 : ℚ) / 134217728) ∧
    errorInArcSeconds ((13421773 : ℚ) / 134217728) = 360 ∧
    (13421773 : ℚ) / 134217728 * 3600 = 360 + 45 / 8388608 ∧
    errorInArcSeconds ((13421773 : ℚ) / 134217728) ≠ (13421773 : ℚ) / 134217728 * 3600 := by
  have h360 : errorInArcSeconds ((13421773 : ℚ) / 134217728) = 360 := f32_tenth_arcsec
  refine ⟨isF32_tenth, h360, by norm_num, ?_⟩
  rw [h360]
  norm_num

end AS5600

namespace AS5600

theorem toInt_of_nonneg {x : ℚ} (hx : 0 ≤ x) : toInt x = ⌊x⌋ := by
  simp [toInt, hx]

theorem toInt_intCast (n : Int) : toInt (n : ℚ) = n := by
  unfold toInt
  split
  · exact Int.floor_intCast n
  · exact Int.ceil_intCast n

/-- Truncation moves a value by less than one, toward zero. -/
theorem toInt_bounds (x : ℚ) :
    |x - (toInt x : ℚ)| < 1 ∧ |(toInt x : ℚ)| ≤ |x| := by
  unfold toInt
  split_ifs with h
  · have h1 := Int.floor_le x
    have h2 := Int.lt_floor_add_one x
    have h3 : (0 : ℚ) ≤ (⌊x⌋ : ℚ) := by exact_mod_cast Int.floor_nonneg.mpr h
    constructor
    · rw [abs_lt]; constructor <;> linarith
    · rw [abs_of_nonneg h3, abs_of_nonneg h]; exact h1
  · have hx : x < 0 := not_le.mp h
    have h1 := Int.le_ceil x
    have h2 := Int.ceil_lt_add_one x
    have h3 : ((⌈x⌉ : Int) : ℚ) ≤ 0 := by
      exact_mod_cast Int.ceil_le.mpr (by exact_mod_cast hx.le)
    constructor
    · rw [abs_lt]; constructor <;> linarith
    · rw [abs_of_nonpos h3, abs_of_neg hx]; linarith

theorem f32_intCast_small (n : Int) (h : |(n : ℚ)| ≤ 512) : f32 (n : ℚ) = n := by
  apply f32_intCast
  have h1 : |(n : ℚ)| < ((2 ^ 24 : Int) : ℚ) := by
    push_cast
    linarith
  rw [← Int.cast_abs] at h1
  exact_mod_cast h1

/-- Float decomposition followed by exact recomposition: the components returned
by `decimalToDMS` describe the argument to within `2^-15` degrees. -/
theorem decimalToDMS_recompose (d : ℚ) (hd : |d| ≤ 361) :
    |((decimalToDMS d).1 : ℚ) + ((decimalToDMS d).2.1 : ℚ) / 60 + (decimalToDMS d).2.2 / 3600
        - d| ≤ 1 / 32768 ∧
    |((decimalToDMS d).1 : ℚ)| ≤ 361 ∧ |((decimalToDMS d).2.1 : ℚ)| ≤ 61 ∧
    |(decimalToDMS d).2.2| ≤ 61 := by
  obtain ⟨hd1, hd2⟩ := toInt_bounds d
  have hg : f32 ((toInt d : Int) : ℚ) = toInt d := f32_intCast_small _ (by linarith)
  have ha := f32_near (d - (toInt d : ℚ)) (by linarith)
  obtain ⟨hd1a, hd1b⟩ := abs_lt.mp hd1
  obtain ⟨ha1, ha2⟩ := abs_le.mp ha
  have hr := f32_near (f32 (d - (toInt d : ℚ)) * 60)
    (abs_lt.mpr ⟨by linarith, by linarith⟩)
  obtain ⟨hr1, hr2⟩ := abs_le.mp hr
  obtain ⟨hm1, hm2⟩ := toInt_bounds (f32 (f32 (d - (toInt d : ℚ)) * 60))
  have hrabs : |f32 (f32 (d - (toInt d : ℚ)) * 60)| ≤ 61 :=
    abs_le.mpr ⟨by linarith, by linarith⟩
  have hgm : f32 ((toInt (f32 (f32 (d - (toInt d : ℚ)) * 60)) : Int) : ℚ)
      = toInt (f32 (f32 (d - (toInt d : ℚ)) * 60)) := f32_intCast_small _ (by linarith)
  have hz := f32_near (f32 (f32 (d - (toInt d : ℚ)) * 60)
      - (toInt (f32 (f32 (d - (toInt d : ℚ)) * 60)) : ℚ)) (by linarith)
  obtain ⟨hm1a, hm1b⟩ := abs_lt.mp hm1
  obtain ⟨hz1, hz2⟩ := abs_le.mp hz
  have hs := f32_near (f32 (f32 (f32 (d - (toInt d : ℚ)) * 60)
      - (toInt (f32 (f32 (d - (toInt d : ℚ)) * 60)) : ℚ)) * 60)
    (abs_lt.mpr ⟨by linarith, by linarith⟩)
  obtain ⟨hs1, hs2⟩ := abs_le.mp hs
  simp only [decimalToDMS, decimalToDMSWith, hg, hgm]
  refine ⟨abs_le.mpr ⟨by linarith, by linarith⟩, by linarith, by linarith,
    abs_le.mpr ⟨by linarith, by linarith⟩⟩

/-- Float recomposition: `DMStoDecimal` is within `2^-14` degrees of the exact
sum of its components. -/
theorem DMStoDecimal_near (deg min : Int) (sec : ℚ) (hdeg : |(deg : ℚ)| ≤ 361)
    (hmin : |(min : ℚ)| ≤ 61) (hsec : |sec| ≤ 61) :
    |DMStoDecimal deg min sec - ((deg : ℚ) + (min : ℚ) / 60 + sec / 3600)| ≤ 1 / 16384 := by
  have hg : f32 (deg : ℚ) = deg := f32_intCast_small _ (by linarith)
  have hgm : f32 (min : ℚ) = min := f32_intCast_small _ (by linarith)
  obtain ⟨hdeg1, hdeg2⟩ := abs_le.mp hdeg
  obtain ⟨hmin1, hmin2⟩ := abs_le.mp hmin
  obtain ⟨hsec1, hsec2⟩ := abs_le.mp hsec
  have hb1 := f32_near ((min : ℚ) / 60) (abs_lt.mpr ⟨by linarith, by linarith⟩)
  obtain ⟨hb1a, hb1b⟩ := abs_le.mp hb1
  have hb2 := f32_near ((deg : ℚ) + f32 ((min : ℚ) / 60))
    (abs_lt.mpr ⟨by linarith, by linarith⟩)
  obtain ⟨hb2a, hb2b⟩ := abs_le.mp hb2
  have hb3 := f32_near (sec / 3600) (abs_lt.mpr ⟨by linarith, by linarith⟩)
  obtain ⟨hb3a, hb3b⟩ := abs_le.mp hb3
  have hb4 := f32_near (f32 ((deg : ℚ) + f32 ((min : ℚ) / 60)) + f32 (sec / 3600))
    (abs_lt.mpr ⟨by linarith, by linarith⟩)
  obtain ⟨hb4a, hb4b⟩ := abs_le.mp hb4
  simp only [DMStoDecimal, DMStoDecimalWith, hg, hgm]
  exact abs_le.mpr ⟨by linarith, by linarith⟩

/-- The formulas of `decimalToDMS` and `DMStoDecimal` compose to the identity in
exact arithmetic, whatever integers the two truncations produce. -/
theorem DMStoDecimal_decimalToDMS_exact (decimal : ℚ) :
    DMStoDecimalWith id (decimalToDMSWith id decimal).1 (decimalToDMSWith id decimal).2.1
      (decimalToDMSWith id decimal).2.2 = decimal := by
  simp only [DMStoDecimalWith, decimalToDMSWith, id]
  ring

/-- C7. Decimal round trip: for every `decimal` in `[0, 360)`, the float value
`DMStoDecimal` returns on the components produced by `decimalToDMS decimal`
differs from `decimal` by at most 1e-3 (every float rounding of the two
functions taken into account); in exact arithmetic the same formulas return
`decimal` itself. -/
theorem decimal_round_trip (decimal : ℚ) (h0 : 0 ≤ decimal) (h360 : decimal < 360) :
    |DMStoDecimal (decimalToDMS decimal).1 (decimalToDMS decimal).2.1
      (decimalToDMS decimal).2.2 - decimal| ≤ 1 / 1000 ∧
    DMStoDecimalWith id (decimalToDMSWith id decimal).1 (decimalToDMSWith id decimal).2.1
      (decimalToDMSWith id decimal).2.2 = decimal := by
  obtain ⟨hre, hdeg, hmin, hsec⟩ :=
    decimalToDMS_recompose decimal (abs_le.mpr ⟨by linarith, by linarith⟩)
  have hnear := DMStoDecimal_near _ _ _ hdeg hmin hsec
  refine ⟨?_, DMStoDecimal_decimalToDMS_exact decimal⟩
  obtain ⟨h1, h2⟩ := abs_le.mp hre
  obtain ⟨h3, h4⟩ := abs_le.mp hnear
  exact abs_le.mpr ⟨by linarith, by linarith⟩

/-- Round trip at the largest sensor reading, 359.912109375 degrees. -/
theorem decimal_round_trip_witness :
    (0 : ℚ) ≤ 359.912109375 ∧ (359.912109375 : ℚ) < 360 ∧
    |DMStoDecimal (decimalToDMS 359.912109375).1 (decimalToDMS 359.912109375).2.1
      (decimalToDMS 359.912109375).2.2 - 359.912109375| ≤ 1 / 1000 :=
  ⟨by norm_num, by norm_num,
   (decimal_round_trip 359.912109375 (by norm_num) (by norm_num)).1⟩

end AS5600

namespace AS5600

/-- The two truncations of `decimalToDMS` on a non-negative float below 360, with
the float operations that are exact removed. -/
theorem decimalToDMS_of_float (decimal : ℚ) (hf : isF32 decimal) (h0 : 0 ≤ decimal)
    (h360 : decimal < 360) :
    decimalToDMS decimal
      = (⌊decimal⌋, ⌊f32 ((decimal - (⌊decimal⌋ : ℚ)) * 60)⌋,
          f32 ((f32 ((decimal - (⌊decimal⌋ : ℚ)) * 60)
            - (⌊f32 ((decimal - (⌊decimal⌋ : ℚ)) * 60)⌋ : ℚ)) * 60)) ∧
    (0 ≤ f32 ((decimal - (⌊decimal⌋ : ℚ)) * 60) ∧
      f32 ((decimal - (⌊decimal⌋ : ℚ)) * 60) < 60) ∧
    (0 ≤ f32 ((f32 ((decimal - (⌊decimal⌋ : ℚ)) * 60)
            - (⌊f32 ((decimal - (⌊decimal⌋ : ℚ)) * 60)⌋ : ℚ)) * 60) ∧
      f32 ((f32 ((decimal - (⌊decimal⌋ : ℚ)) * 60)
            - (⌊f32 ((decimal - (⌊decimal⌋ : ℚ)) * 60)⌋ : ℚ)) * 60) < 60) := by
  have hD0 : (0 : ℚ) ≤ (⌊decimal⌋ : ℚ) := by exact_mod_cast Int.floor_nonneg.mpr h0
  have hD1 := Int.floor_le decimal
  obtain ⟨hy0, hy1⟩ := floor_frac_bounds decimal
  have hgD : f32 ((⌊decimal⌋ : Int) : ℚ) = ⌊decimal⌋ :=
    f32_intCast_small _ (by rw [abs_of_nonneg hD0]; linarith)
  have hyF := isF32_sub_floor decimal hf h0
  have hy2 := isF32_lt_one _ hyF hy1
  have hR0 := f32_nonneg ((decimal - (⌊decimal⌋ : ℚ)) * 60) (by linarith)
  have hR1 := f32_lt_sixty ((decimal - (⌊decimal⌋ : ℚ)) * 60) (by linarith) (by linarith)
  have hRF := isF32_f32 ((decimal - (⌊decimal⌋ : ℚ)) * 60)
  have e1 : decimalToDMS decimal
      = (toInt decimal,
          toInt (f32 (f32 (decimal - f32 ((toInt decimal : Int) : ℚ)) * 60)),
          f32 (f32 (f32 (f32 (decimal - f32 ((toInt decimal : Int) : ℚ)) * 60)
            - f32 ((toInt (f32 (f32 (decimal - f32 ((toInt decimal : Int) : ℚ)) * 60)) : Int)
                : ℚ)) * 60)) := rfl
  unfold isF32 at hyF
  rw [e1, toInt_of_nonneg h0, hgD, hyF, toInt_of_nonneg hR0]
  generalize f32 ((decimal - (⌊decimal⌋ : ℚ)) * 60) = R at hR0 hR1 hRF ⊢
  have hM0 : (0 : ℚ) ≤ (⌊R⌋ : ℚ) := by exact_mod_cast Int.floor_nonneg.mpr hR0
  have hM1 := Int.floor_le R
  obtain ⟨hz0, hz1⟩ := floor_frac_bounds R
  have hgM : f32 ((⌊R⌋ : Int) : ℚ) = ⌊R⌋ :=
    f32_intCast_small _ (by rw [abs_of_nonneg hM0]; linarith)
  have hzF := isF32_sub_floor R hRF hR0
  have hz2 := isF32_lt_one _ hzF hz1
  have hS0 := f32_nonneg ((R - (⌊R⌋ : ℚ)) * 60) (by linarith)
  have hS1 := f32_lt_sixty ((R - (⌊R⌋ : ℚ)) * 60) (by linarith) (by linarith)
  unfold isF32 at hzF
  rw [hgM, hzF]
  exact ⟨rfl, ⟨hR0, hR1⟩, ⟨hS0, hS1⟩⟩

/-- C8 (amended). `decimalToDMS` output ranges: for every float `decimal` in
`[0, 360)`, `deg` is the integer part of `decimal` (`deg ≤ decimal < deg + 1`)
with `0 ≤ deg ≤ 359`; `min` is the integer part of the float product
`(decimal - deg)*60`, which is within `2^-19` of the exact product, with
`0 ≤ min ≤ 59`; and `sec` is the float product of 60 and what remains of that
float after removing `min`, within `2^-19` of the exact product, with
`0 ≤ sec < 60`. -/
theorem decimalToDMS_ranges (decimal : ℚ) (hf : isF32 decimal) (h0 : 0 ≤ decimal)
    (h360 : decimal < 360) :
    ((decimalToDMS decimal).1 = ⌊decimal⌋ ∧
      ((decimalToDMS decimal).1 : ℚ) ≤ decimal ∧
      decimal < ((decimalToDMS decimal).1 : ℚ) + 1 ∧
      0 ≤ (decimalToDMS decimal).1 ∧ (decimalToDMS decimal).1 ≤ 359) ∧
    ((decimalToDMS decimal).2.1
        = ⌊f32 ((decimal - ((decimalToDMS decimal).1 : ℚ)) * 60)⌋ ∧
      |f32 ((decimal - ((decimalToDMS decimal).1 : ℚ)) * 60)
        - (decimal - ((decimalToDMS decimal).1 : ℚ)) * 60| ≤ 1 / 524288 ∧
      0 ≤ (decimalToDMS decimal).2.1 ∧ (decimalToDMS decimal).2.1 ≤ 59) ∧
    ((decimalToDMS decimal).2.2
        = f32 ((f32 ((decimal - ((decimalToDMS decimal).1 : ℚ)) * 60)
            - ((decimalToDMS decimal).2.1 : ℚ)) * 60) ∧
      |(decimalToDMS decimal).2.2
        - (f32 ((decimal - ((decimalToDMS decimal).1 : ℚ)) * 60)
            - ((decimalToDMS decimal).2.1 : ℚ)) * 60| ≤ 1 / 524288 ∧
      0 ≤ (decimalToDMS decimal).2.2 ∧ (decimalToDMS decimal).2.2 < 60) := by
  obtain ⟨heq, ⟨hR0, hR1⟩, ⟨hS0, hS1⟩⟩ := decimalToDMS_of_float decimal hf h0 h360
  have hdeg : (decimalToDMS decimal).1 = ⌊decimal⌋ := by rw [heq]
  have hmin : (decimalToDMS decimal).2.1 = ⌊f32 ((decimal - (⌊decimal⌋ : ℚ)) * 60)⌋ := by
    rw [heq]
  have hsec : (decimalToDMS decimal).2.2
      = f32 ((f32 ((decimal - (⌊decimal⌋ : ℚ)) * 60)
            - (⌊f32 ((decimal - (⌊decimal⌋ : ℚ)) * 60)⌋ : ℚ)) * 60) := by
    rw [heq]
  obtain ⟨hy0, hy1⟩ := floor_frac_bounds decimal
  obtain ⟨hz0, hz1⟩ := floor_frac_bounds (f32 ((decimal - (⌊decimal⌋ : ℚ)) * 60))
  have h64 : (2 : ℚ) ^ ((5 : Int) + 1) = 64 := by norm_num
  have hulp : (2 : ℚ) ^ ((5 : Int) - 23) / 2 = 1 / 524288 := by norm_num
  have herr1 := f32_err_of_abs_lt ((decimal - (⌊decimal⌋ : ℚ)) * 60) 5 (by norm_num)
    (by rw [abs_of_nonneg (by linarith), h64]; linarith)
  have herr2 := f32_err_of_abs_lt ((f32 ((decimal - (⌊decimal⌋ : ℚ)) * 60)
      - (⌊f32 ((decimal - (⌊decimal⌋ : ℚ)) * 60)⌋ : ℚ)) * 60) 5 (by norm_num)
    (by rw [abs_of_nonneg (by linarith), h64]; linarith)
  rw [hulp] at herr1 herr2
  rw [hsec, hmin, hdeg]
  refine ⟨⟨rfl, Int.floor_le decimal, Int.lt_floor_add_one decimal, Int.floor_nonneg.mpr h0, ?_⟩,
    ⟨rfl, herr1, Int.floor_nonneg.mpr hR0, ?_⟩, rfl, herr2, hS0, hS1⟩
  · have : ⌊decimal⌋ < 360 := Int.floor_lt.mpr (by exact_mod_cast h360)
    omega
  · have : ⌊f32 ((decimal - (⌊decimal⌋ : ℚ)) * 60)⌋ < 60 :=
      Int.floor_lt.mpr (by exact_mod_cast hR1)
    omega

theorem isF32_top_reading : isF32 (359.912109375 : ℚ) := by
  have h := isF32_rawToDegrees 4095 (by decide)
  unfold isF32 at h ⊢
  norm_num [rawToDegrees] at h ⊢
  exact h

/-- Components of 359.912109375 degrees, all inside their ranges. -/
theorem decimalToDMS_ranges_witness :
    isF32 (359.912109375 : ℚ) ∧ (0 : ℚ) ≤ 359.912109375 ∧ (359.912109375 : ℚ) < 360 ∧
    (0 ≤ (decimalToDMS 359.912109375).1 ∧ (decimalToDMS 359.912109375).1 ≤ 359) ∧
    (0 ≤ (decimalToDMS 359.912109375).2.1 ∧ (decimalToDMS 359.912109375).2.1 ≤ 59) ∧
    (0 ≤ (decimalToDMS 359.912109375).2.2 ∧ (decimalToDMS 359.912109375).2.2 < 60) := by
  have h := decimalToDMS_ranges 359.912109375 isF32_top_reading (by norm_num) (by norm_num)
  exact ⟨isF32_top_reading, by norm_num, by norm_num, ⟨h.1.2.2.2.1, h.1.2.2.2.2⟩,
    ⟨h.2.1.2.2.1, h.2.1.2.2.2⟩, ⟨h.2.2.2.2.1, h.2.2.2.2.2⟩⟩

/-- The float `0x1.222222p-2`, about 0.2833333313. -/
theorem isF32_seventeen_minutes : isF32 ((9507089 : ℚ) / 33554432) := by
  have h := f32_div_two_pow 9507089 25 (by norm_num) (by norm_num)
  unfold isF32
  norm_num at h ⊢
  exact h

theorem f32_seventeen_minutes : f32 ((9507089 : ℚ) / 33554432 * 60) = 17 := by
  have h := f32_eval_up_pos ((9507089 : ℚ) / 33554432 * 60) 4 8912895 (by norm_num)
    (by norm_num) (by norm_num) (by norm_num) (by norm_num)
  rw [h]
  norm_num

/-- C8 as stated fails on the float `0x1.222222p-2` (about 0.2833333313): the
product `decimal*60 = 16.99999988...` is rounded to the float 17 before the
truncation, so the code returns `(0, 17, 0)`, while the integer part of
`(decimal - deg)*60` is 16 and `((decimal - deg)*60 - 16)*60` is about
59.9999928. -/
theorem decimalToDMS_ranges_counterexample :
    isF32 ((9507089 : ℚ) / 33554432) ∧
    (0 : ℚ) ≤ (9507089 : ℚ) / 33554432 ∧ (9507089 : ℚ) / 33554432 < 360 ∧
    decimalToDMS ((9507089 : ℚ) / 33554432) = (0, 17, 0) ∧
    ⌊((9507089 : ℚ) / 33554432 - ((0 : Int) : ℚ)) * 60⌋ = 16 ∧
    (((9507089 : ℚ) / 33554432 - ((0 : Int) : ℚ)) * 60 - ((16 : Int) : ℚ)) * 60
      = 60 - 15 / 2097152 := by
  obtain ⟨heq, _, _⟩ := decimalToDMS_of_float ((9507089 : ℚ) / 33554432)
    isF32_seventeen_minutes (by norm_num) (by norm_num)
  have hfl : ⌊(9507089 : ℚ) / 33554432⌋ = 0 := by
    rw [Int.floor_eq_iff]; norm_num
  have h17 : ⌊(17 : ℚ)⌋ = 17 := by
    rw [Int.floor_eq_iff]; norm_num
  refine ⟨isF32_seventeen_minutes, by norm_num, by norm_num, ?_, ?_, by norm_num⟩
  · rw [heq, hfl]
    simp only [Int.cast_zero, sub_zero]
    rw [f32_seventeen_minutes, h17]
    simp [f32_zero]
  · rw [Int.floor_eq_iff]
    norm_num

/-- On a sensor angle every float operation of `decimalToDMS` is exact. -/
theorem decimalToDMS_sensor (raw : Nat) (hraw : raw ≤ 4095) :
    decimalToDMS (rawToDegrees raw) = decimalToDMSWith id (rawToDegrees raw) := by
  have hx0 : (0 : ℚ) ≤ rawToDegrees raw := by
    unfold rawToDegrees; positivity
  have hx1 : rawToDegrees raw < 360 := by
    have : (raw : ℚ) ≤ 4095 := by exact_mod_cast hraw
    unfold rawToDegrees
    linarith
  obtain ⟨heq, ⟨hR0, hR1⟩, _⟩ := decimalToDMS_of_float (rawToDegrees raw)
    (isF32_rawToDegrees raw (by omega)) hx0 hx1
  obtain ⟨hy0, hy1⟩ := floor_frac_bounds (rawToDegrees raw)
  -- the fraction of a degree is `n / 512`
  have hn : rawToDegrees raw - (⌊rawToDegrees raw⌋ : ℚ)
      = ((raw * 45 - 512 * ⌊rawToDegrees raw⌋ : Int) : ℚ) / 2 ^ 9 := by
    unfold rawToDegrees
    push_cast
    ring
  generalize hN : (raw * 45 - 512 * ⌊rawToDegrees raw⌋ : Int) = n at hn
  have hn0 : 0 ≤ n := by
    have : (0 : ℚ) ≤ (n : ℚ) := by
      rw [hn] at hy0
      have := div_nonneg_iff.mp hy0
      rcases this with h | h
      · exact h.1
      · norm_num at h
    exact_mod_cast this
  have hn1 : n < 512 := by
    have : (n : ℚ) < 512 := by
      rw [hn, div_lt_iff₀ (by norm_num)] at hy1
      linarith
    exact_mod_cast this
  have hprod : (rawToDegrees raw - (⌊rawToDegrees raw⌋ : ℚ)) * 60
      = ((15 * n : Int) : ℚ) / 2 ^ 7 := by
    rw [hn]; push_cast; ring
  have hRex : f32 ((rawToDegrees raw - (⌊rawToDegrees raw⌋ : ℚ)) * 60)
      = (rawToDegrees raw - (⌊rawToDegrees raw⌋ : ℚ)) * 60 := by
    rw [hprod]
    exact f32_div_two_pow _ 7 (abs_lt.mpr ⟨by omega, by omega⟩) (by norm_num)
  rw [hRex] at heq hR0 hR1
  obtain ⟨hz0, hz1⟩ := floor_frac_bounds ((rawToDegrees raw - (⌊rawToDegrees raw⌋ : ℚ)) * 60)
  have hm : (rawToDegrees raw - (⌊rawToDegrees raw⌋ : ℚ)) * 60
      - (⌊(rawToDegrees raw - (⌊rawToDegrees raw⌋ : ℚ)) * 60⌋ : ℚ)
      = ((15 * n - 128 * ⌊(rawToDegrees raw - (⌊rawToDegrees raw⌋ : ℚ)) * 60⌋ : Int) : ℚ)
          / 2 ^ 7 := by
    rw [hprod]; push_cast; ring
  generalize hM : (15 * n - 128 * ⌊(rawToDegrees raw - (⌊rawToDegrees raw⌋ : ℚ)) * 60⌋ : Int)
    = m at hm
  have hm0 : 0 ≤ m := by
    have : (0 : ℚ) ≤ (m : ℚ) := by
      rw [hm] at hz0
      have := div_nonneg_iff.mp hz0
      rcases this with h | h
      · exact h.1
      · norm_num at h
    exact_mod_cast this
  have hm1 : m < 128 := by
    have : (m : ℚ) < 128 := by
      rw [hm, div_lt_iff₀ (by norm_num)] at hz1
      linarith
    exact_mod_cast this
  have hSex : f32 (((rawToDegrees raw - (⌊rawToDegrees raw⌋ : ℚ)) * 60
      - (⌊(rawToDegrees raw - (⌊rawToDegrees raw⌋ : ℚ)) * 60⌋ : ℚ)) * 60)
      = ((rawToDegrees raw - (⌊rawToDegrees raw⌋ : ℚ)) * 60
      - (⌊(rawToDegrees raw - (⌊rawToDegrees raw⌋ : ℚ)) * 60⌋ : ℚ)) * 60 := by
    rw [hm]
    have e : ((m : ℚ) / 2 ^ 7) * 60 = ((15 * m : Int) : ℚ) / 2 ^ 5 := by
      push_cast; ring
    rw [e]
    exact f32_div_two_pow _ 5 (abs_lt.mpr ⟨by omega, by omega⟩) (by norm_num)
  rw [hSex] at heq
  rw [heq]
  simp only [decimalToDMSWith, id, toInt_of_nonneg hx0, toInt_of_nonneg hR0]

theorem decimalToDMSWith_id_intCast (n : Int) : decimalToDMSWith id (n : ℚ) = (n, 0, 0) := by
  have h0 : toInt (0 : ℚ) = 0 := by simpa using toInt_intCast 0
  simp only [decimalToDMSWith, id, toInt_intCast, sub_self, zero_mul, h0, Int.cast_zero]

theorem rawToDegrees_mul_512 (k : Nat) : rawToDegrees (512 * k) = ((45 * k : Nat) : ℚ) := by
  unfold rawToDegrees
  push_cast
  ring

theorem readRawAngle_angleWire (raw : Nat) (hraw : raw ≤ 4095) :
    readRawAngle (angleWire (raw / 256) (raw % 256)) = raw := by
  have h := masked_read (pairWire AS5600_RAW_ANGLE_H (raw / 256) (raw % 256)) AS5600_RAW_ANGLE_H
  obtain ⟨h8, l8⟩ :=
    readRegister8_pairWire AS5600_RAW_ANGLE_H (raw / 256) (raw % 256) (by decide)
  have e : readRawAngle (angleWire (raw / 256) (raw % 256))
      = readRegister16 (pairWire AS5600_RAW_ANGLE_H (raw / 256) (raw % 256)) AS5600_RAW_ANGLE_H
          &&& 0x0FFF := rfl
  rw [e, h.1, h8, l8]
  omega

/-- C11. Angle measurement record: on every bus, `readPreciseAngle` returns
`rawValue` = the raw code read (which lies in `[0, 4095]`), `degrees =
rawValue*360/4096`, `(deg, minutes, seconds) = decimalToDMS degrees`, hence
`deg + minutes/60 + seconds/3600 = degrees`; when the raw code is a multiple of
512 the DMS part is `(45*raw/512, 0, 0)`; and every raw code in `[0, 4095]` is
the code read on some bus. -/
theorem precise_angle_record :
    (∀ (w : Wire) (millis : Nat),
      (readPreciseAngle w millis).rawValue = readRawAngle w ∧
      (readPreciseAngle w millis).rawValue ≤ 4095 ∧
      (readPreciseAngle w millis).degrees
        = ((readPreciseAngle w millis).rawValue : ℚ) * 360 / 4096 ∧
      ((readPreciseAngle w millis).deg, (readPreciseAngle w millis).minutes,
        (readPreciseAngle w millis).seconds)
        = decimalToDMS (readPreciseAngle w millis).degrees ∧
      ((readPreciseAngle w millis).deg : ℚ) + ((readPreciseAngle w millis).minutes : ℚ) / 60
        + (readPreciseAngle w millis).seconds / 3600 = (readPreciseAngle w millis).degrees ∧
      (512 ∣ (readPreciseAngle w millis).rawValue →
        (readPreciseAngle w millis).deg
            = ((45 * (readPreciseAngle w millis).rawValue / 512 : Nat) : Int) ∧
        (readPreciseAngle w millis).minutes = 0 ∧
        (readPreciseAngle w millis).seconds = 0)) ∧
    (∀ raw : Nat, raw ≤ 4095 → ∀ millis : Nat,
      (readPreciseAngle (angleWire (raw / 256) (raw % 256)) millis).rawValue = raw) := by
  constructor
  · intro w millis
    have hraw : readRawAngle w ≤ 4095 := (masked_read w AS5600_RAW_ANGLE_H).2.2
    have hex := decimalToDMS_sensor (readRawAngle w) hraw
    have hdeg : (readPreciseAngle w millis).deg
        = (decimalToDMS (rawToDegrees (readRawAngle w))).1 := rfl
    have hmin : (readPreciseAngle w millis).minutes
        = (decimalToDMS (rawToDegrees (readRawAngle w))).2.1 := rfl
    have hsec : (readPreciseAngle w millis).seconds
        = (decimalToDMS (rawToDegrees (readRawAngle w))).2.2 := rfl
    have hdegrees : (readPreciseAngle w millis).degrees = rawToDegrees (readRawAngle w) := rfl
    refine ⟨rfl, hraw, rfl, rfl, ?_, ?_⟩
    · rw [hdeg, hmin, hsec, hdegrees, hex]
      simp only [decimalToDMSWith, id]
      ring
    · intro hdvd
      obtain ⟨k, hk⟩ := hdvd
      have hrawv : (readPreciseAngle w millis).rawValue = readRawAngle w := rfl
      rw [hrawv] at hk ⊢
      have hdms : decimalToDMS (rawToDegrees (readRawAngle w))
          = (((45 * k : Nat) : Int), 0, 0) := by
        rw [hex, hk, rawToDegrees_mul_512]
        exact decimalToDMSWith_id_intCast ((45 * k : Nat) : Int)
      have hdiv : 45 * readRawAngle w / 512 = 45 * k := by
        rw [hk]; omega
      rw [hdeg, hmin, hsec, hdms, hdiv]
      exact ⟨rfl, rfl, rfl⟩
  · intro raw hraw millis
    exact readRawAngle_angleWire raw hraw

/-- End-to-end scenario: raw 2048 gives 180 degrees and DMS (180, 0, 0); raw 1024
gives 90 degrees and DMS (90, 0, 0). -/
theorem precise_angle_record_witness :
    ((readPreciseAngle (angleWire 8 0) 1000).rawValue = 2048 ∧
      (readPreciseAngle (angleWire 8 0) 1000).degrees = 180 ∧
      (readPreciseAngle (angleWire 8 0) 1000).deg = 180 ∧
      (readPreciseAngle (angleWire 8 0) 1000).minutes = 0 ∧
      (readPreciseAngle (angleWire 8 0) 1000).seconds = 0) ∧
    ((readPreciseAngle (angleWire 4 0) 1000).rawValue = 1024 ∧
      (readPreciseAngle (angleWire 4 0) 1000).degrees = 90 ∧
      (readPreciseAngle (angleWire 4 0) 1000).deg = 90 ∧
      (readPreciseAngle (angleWire 4 0) 1000).minutes = 0 ∧
      (readPreciseAngle (angleWire 4 0) 1000).seconds = 0) := by
  have r8 : (readPreciseAngle (angleWire 8 0) 1000).rawValue = 2048 :=
    precise_angle_record.2 2048 (by decide) 1000
  have r4 : (readPreciseAngle (angleWire 4 0) 1000).rawValue = 1024 :=
    precise_angle_record.2 1024 (by decide) 1000
  obtain ⟨_, _, d8, _, _, m8⟩ := precise_angle_record.1 (angleWire 8 0) 1000
  obtain ⟨_, _, d4, _, _, m4⟩ := precise_angle_record.1 (angleWire 4 0) 1000
  rw [r8] at d8 m8
  rw [r4] at d4 m4
  refine ⟨⟨r8, ?_, ?_, (m8 (by decide)).2.1, (m8 (by decide)).2.2⟩,
    ⟨r4, ?_, ?_, (m4 (by decide)).2.1, (m4 (by decide)).2.2⟩⟩
  · rw [d8]; norm_num
  · rw [(m8 (by decide)).1]; rfl
  · rw [d4]; norm_num
  · rw [(m4 (by decide)).1]; rfl

end AS5600

namespace AS5600

theorem toInt_eq_of_bounds {x : ℚ} (n : Int) (hn : 0 ≤ n) (hlo : (n : ℚ) ≤ x)
    (hhi : x < (n : ℚ) + 1) : toInt x = n := by
  have hx : (0 : ℚ) ≤ x := le_trans (by exact_mod_cast hn) hlo
  rw [toInt_of_nonneg hx, Int.floor_eq_iff]
  exact ⟨hlo, hhi⟩

/-- In exact arithmetic the decomposition inverts the recomposition on
normalised components. -/
theorem decimalToDMS_DMStoDecimal_exact (d m : Int) (x : ℚ) (hd : 0 ≤ d) (hm0 : 0 ≤ m)
    (hm1 : m ≤ 59) (hx0 : 0 ≤ x) (hx1 : x < 60) :
    decimalToDMSWith id (DMStoDecimalWith id d m x) = (d, m, x) := by
  have hmq0 : (0 : ℚ) ≤ (m : ℚ) := by exact_mod_cast hm0
  have hmq1 : (m : ℚ) ≤ 59 := by exact_mod_cast hm1
  have hval : DMStoDecimalWith id d m x = (d : ℚ) + (m : ℚ) / 60 + x / 3600 := by
    simp only [DMStoDecimalWith, id]
  have hd1 : toInt ((d : ℚ) + (m : ℚ) / 60 + x / 3600) = d := by
    apply toInt_eq_of_bounds d hd <;> linarith
  have hrem : ((d : ℚ) + (m : ℚ) / 60 + x / 3600 - (d : ℚ)) * 60 = (m : ℚ) + x / 60 := by
    ring
  have hm : toInt ((m : ℚ) + x / 60) = m := by
    apply toInt_eq_of_bounds m hm0 <;> linarith
  rw [hval]
  simp only [decimalToDMSWith, id, hd1, hrem, hm]
  refine Prod.ext rfl (Prod.ext rfl ?_)
  simp only
  ring

theorem f32_one : f32 (1 : ℚ) = 1 := by
  simpa using f32_intCast 1 (by norm_num)

theorem f32_one_minute : f32 ((1 : ℚ) / 60) = 8947849 / 536870912 := by
  have h := f32_eval_up_pos ((1 : ℚ) / 60) (-6) 8947848 (by norm_num) (by norm_num)
    (by norm_num) (by norm_num) (by norm_num)
  rw [h]
  norm_num

theorem f32_degree_and_minute :
    f32 ((1 : ℚ) + 8947849 / 536870912) = 4264209 / 4194304 := by
  have h := f32_eval_down_pos ((1 : ℚ) + 8947849 / 536870912) 0 8528418 (by norm_num)
    (by norm_num) (by norm_num) (by norm_num) (by norm_num)
  rw [h]
  norm_num

theorem isF32_degree_and_minute : isF32 ((4264209 : ℚ) / 4194304) := by
  have h := f32_div_two_pow 4264209 22 (by norm_num) (by norm_num)
  unfold isF32
  norm_num at h ⊢
  exact h

end AS5600
